import Mathlib

/-!
Verification of the Content Graph Flattening & Normalization Engine
(`NuggetCatalog` in the source, src/unnamed/part_002).

The JavaScript source is shallowly embedded below:

* markdown strings are Lean `String`s, and the line-oriented regex
  `HEADING_RE = /^(#+)\s+(.+)$/gm` is modelled by splitting on `'\n'` and
  testing each line;
* the `allNuggets` object (string keys, insertion-ordered) is an association
  list `List (String × Nugget)`; `seamNuggetChunks` likewise;
* thrown JS errors are modelled by `Except JsErr`, with one constructor per
  JS error class that is relevant here;
* the `tree-model` library tree is a rose tree (`TmTree`/`TmList`); its
  `first` (pre-order search of the subtree), `addChild` (comparator-sorted
  insertion before the first strictly-greater sibling) and `walk` (pre-order)
  are embedded directly;
* the asynchronous ArangoDB cursor of `getTree` is external: `getTree` takes
  the already-split list of key paths (the source splits `c.keys` on `'|'`).
-/

/-- JS error classes that the embedded code can raise (or that the spec
mentions).  `assertionError` is what Node's `assert.ok` throws,
`errorMsg s` is `new Error(s)`, `typeError` is raised by a property access
on `undefined`.  `referenceError` is never thrown by this code; it exists to
state the spec's claim about the error class of a failed tree build. -/
inductive JsErr where
  | assertionError : JsErr
  | errorMsg : String → JsErr
  | typeError : JsErr
  | referenceError : JsErr
deriving DecidableEq, Repr

/-! ### Line-oriented string model

JS `String.prototype.split('\n')` and the multiline heading regex are
modelled on `List Char` so that every operation reduces in the kernel. -/

/-- `s.split('\n')` on the character list: always returns at least one
(possibly empty) line, and `joinNl` is its inverse. -/
def splitNl : List Char → List (List Char)
  | [] => [[]]
  | c :: rest =>
    let r := splitNl rest
    if c = '\n' then [] :: r
    else
      match r with
      | l :: ls => (c :: l) :: ls
      | [] => [[c]]

/-- `lines.join('\n')` on character lists. -/
def joinNl : List (List Char) → List Char
  | [] => []
  | [l] => l
  | l :: ls => l ++ '\n' :: joinNl ls

/-- The lines of a markdown string (the `m` flag of `HEADING_RE` makes the
regex line-oriented). -/
def linesOf (s : String) : List (List Char) := splitNl s.data

/-- A whitespace character as matched by `\s` inside a line. -/
def isWsChar (c : Char) : Bool := c = ' ' || c = '\t'

/-- The number of leading `#` characters of a line (the `(#+)` group). -/
def headHashes (l : List Char) : Nat := (l.takeWhile (fun c => c = '#')).length

/-- Whether a line matches `^(#+)\s+(.+)$`: one or more hashes, then at
least one whitespace character, then at least one further character. -/
def isHeadingLine (l : List Char) : Bool :=
  let n := headHashes l
  let r := l.drop n
  decide (0 < n) &&
    (match r with
     | [] => false
     | c :: rest => isWsChar c && !rest.isEmpty)

/-- The `(.+)` capture of a heading line: the remainder after the greedy
`\s+` run (which backtracks to leave at least one character). -/
def p2Text (l : List Char) : List Char :=
  let r := l.drop (headHashes l)
  let t := r.dropWhile isWsChar
  if t.isEmpty then r.drop (r.length - 1) else t

/-- `'#'.repeat n`. -/
def hashes (n : Nat) : String := String.mk (List.replicate n '#')

/-- The hash counts of the heading lines of a fragment, in order
(`markdown.matchAll(HEADING_RE)` followed by `m => m[1].length`). -/
def levelsOf (md : String) : List Nat :=
  ((linesOf md).filter isHeadingLine).map headHashes

/-- The new-heading-level pipeline of `rewriteHeadings`: offset by the first
heading's level against the target depth, clamp to the maximum 6, raise
levels below the target depth, then apply the one-step clamp whose running
`last` is updated with the *pre-clamp* level `l` (the source's
`.map(l => { const ret = (l > last + 1) ? last + 1 : l; last = l; return ret })`). -/
def newHeadLevels (depths : List Nat) (depth0 : Nat) : List Nat :=
  let depth : Int := if (depth0 : Int) > 6 then 6 else (depth0 : Int)
  match depths with
  | [] => []
  | d0 :: _ =>
    let step1 := depths.map (fun l => (l : Int) - (d0 : Int) + depth)
    let step2 := step1.map (fun l => if l > 6 then 6 else l)
    let step3 := step2.map (fun l => if l < depth then depth else l)
    let step4 :=
      step3.foldl
        (fun (p : List Int × Int) l =>
          ((if l > p.2 + 1 then p.2 + 1 else l) :: p.1, l))
        ([], depth)
    (step4.1.reverse).map Int.toNat

/-- Replace the heading lines in order by `newHeads[idx++] ++ " " ++ p2`
(the replacer function of `markdown.replace(HEADING_RE, ...)`). -/
def rewriteLines : List (List Char) → List Nat → List (List Char)
  | [], _ => []
  | l :: rest, hs =>
    if isHeadingLine l then
      match hs with
      | h :: hs' => (List.replicate h '#' ++ ' ' :: p2Text l) :: rewriteLines rest hs'
      | [] => l :: rewriteLines rest []
    else l :: rewriteLines rest hs

/-- `rewriteHeadings(markdown, depth)`: if the fragment has heading lines,
rewrite each with its new level; otherwise return the fragment unchanged. -/
def rewriteHeadings (md : String) (depth : Nat) : String :=
  let ls := linesOf md
  let ms := ls.filter isHeadingLine
  if ms.isEmpty then md
  else String.mk (joinNl (rewriteLines ls (newHeadLevels (ms.map headHashes) depth)))

/-- The final heading levels of a fragment after rewriting. -/
def finalHeadingLevels (md : String) (depth : Nat) : List Nat :=
  levelsOf (rewriteHeadings md depth)

/-- The claim's monotonic-step property for a list of final levels: each
level exceeds the previous one by at most 1. -/
def stepOkFrom : Nat → List Nat → Bool
  | _, [] => true
  | prev, x :: xs => decide (x ≤ prev + 1) && stepOkFrom x xs

/-- Monotonic nesting of a whole level sequence (the first heading is only
constrained by the depth bounds, not by the step rule). -/
def stepOk : List Nat → Bool
  | [] => true
  | x :: xs => stepOkFrom x xs

/-! ### Nuggets and the catalog -/

/-- A content node as stored in `allNuggets`.  Modelled from the spec for
the fields the catalog reads (the `Nugget` class, `lib/nugget`, is not under
`src/`): `_key`/`_id` are the ArangoDB document key and id, `label` the
human-readable title, `body` the optional markdown text, `nuggets` the
optional grouped-key list that makes the node a seam (composite), `order`
the optional numeric rank. -/
structure Nugget where
  _key : String
  _id : String
  label : String
  body : Option String
  nuggets : Option (List String)
  order : Option Int
deriving DecidableEq, Repr

/-- The mutable state of a `NuggetCatalog` that the claims are about.  The
database handle and the include/exclude AQL filters live in the external
collaborator and are not part of the embedding. -/
structure Catalog where
  allNuggets : List (String × Nugget)
  seamNuggetChunks : List (String × String)
  minLength : Nat
  initialised : Bool
deriving DecidableEq, Repr

/-- JS truthiness of an optional string (`undefined` and `""` are falsy). -/
def strTruthy : Option String → Bool
  | none => false
  | some s => s ≠ ""

/-- `s.startsWith(p)` on character data. -/
def strStarts (s p : String) : Bool := s.data.take p.data.length = p.data

/-- Whether a fragment has at least one heading line
(`retMd.match(NuggetCatalog.HEADING_RE)` is truthy). -/
def hasHeading (s : String) : Bool := (linesOf s).any isHeadingLine

/-- `getMd(acc, key)`: append the nugget's body to the accumulator with a
`'\n'` separator (`[acc, body].join('\n')`; `Array.join` renders an
`undefined` body as the empty string); a key that was filtered out of
`allNuggets` leaves the accumulator unchanged. -/
def getMd (c : Catalog) (acc : String) (key : String) : String :=
  match List.lookup key c.allNuggets with
  | none => acc
  | some nug => acc ++ "\n" ++ nug.body.getD ""

/-- The seams of the catalog: `Object.values(this.allNuggets).filter(s => s.nuggets)`
in insertion order (an empty `nuggets` array is still truthy in JS). -/
def seamsOf (c : Catalog) : List Nugget :=
  (c.allNuggets.map Prod.snd).filter (fun n => n.nuggets.isSome)

/-- The composite chunk of a seam: its own body via `getMd('', seam._key)`,
then each grouped body folded on with `getMd`. -/
def seamChunkOf (c : Catalog) (s : Nugget) : String :=
  (s.nuggets.getD []).foldl (getMd c) (getMd c "" s._key)

/-- The `nugList` of `populateChunks`: for each seam, its key followed by
its grouped keys.  Membership in this list is what "marked consumed"
(`writtenNugs`) means. -/
def consumedKeys (c : Catalog) : List String :=
  (seamsOf c).flatMap (fun s => s._key :: s.nuggets.getD [])

/-- The nuggets handled by the second loop of `populateChunks`: every
nugget whose key was not written by the seam pass. -/
def ownNuggetsOf (c : Catalog) : List Nugget :=
  (c.allNuggets.map Prod.snd).filter (fun n => !(consumedKeys c).contains n._key)

/-- The chunks recorded by the second loop: the nugget's own body, skipped
when the body is falsy (`if (!nugget.body) continue`). -/
def ownEntriesOf (c : Catalog) : List (String × String) :=
  (ownNuggetsOf c).filterMap fun n =>
    match n.body with
    | none => none
    | some b => if b = "" then none else some (n._key, b)

/-- `this.seamNuggetChunks[k] = v` on the association-list model of a JS
object: overwrite an existing entry, otherwise append. -/
def setKV (m : List (String × String)) (k v : String) : List (String × String) :=
  if (List.lookup k m).isSome then
    m.map (fun p => if p.1 = k then (k, v) else p)
  else m ++ [(k, v)]

/-- Record a list of key/chunk pairs in order. -/
def recordAll (m : List (String × String)) : List (String × String) → List (String × String)
  | [] => m
  | kv :: rest => recordAll (setKV m kv.1 kv.2) rest

/-- `populateChunks()`: after the `initCheck`, record one composite chunk
per seam under the seam's key, then one chunk per not-yet-written nugget
with a truthy body. -/
def populateChunks (c : Catalog) : Except JsErr Catalog :=
  if c.initialised then
    .ok { c with
          seamNuggetChunks :=
            recordAll
              (recordAll c.seamNuggetChunks
                ((seamsOf c).map (fun s => (s._key, seamChunkOf c s))))
              (ownEntriesOf c) }
  else .error (.errorMsg "must call init() first")

/-- `#mdForExtract(key, depth)`: a filtered-out key yields nothing; a
recorded chunk takes precedence; a passage falls back to its body or to a
generated heading; a truthy result without a heading line gets a heading
prepended.  `key` is `node.model._key` and may be `undefined` (`none`). -/
def mdForExtract (c : Catalog) (key? : Option String) (depth : Nat) : Option String :=
  match key? with
  | none => none
  | some key =>
    match List.lookup key c.allNuggets with
    | none => none
    | some nug =>
      let retMd? : Option String :=
        match List.lookup key c.seamNuggetChunks with
        | some s => some s
        | none =>
          if strStarts nug._id "passage" then
            if strTruthy nug.body then nug.body
            else some (hashes depth ++ " " ++ nug.label ++ "\n")
          else none
      match retMd? with
      | none => none
      | some r =>
        if r = "" then none
        else if hasHeading r then some r
        else some (hashes depth ++ " " ++ nug.label ++ "\n\n" ++ r)

/-- `markdown.replace(HEADING_RE, '')`: every heading line becomes empty,
newlines are kept. -/
def stripHeadings (md : String) : String :=
  String.mk (joinNl ((linesOf md).map (fun l => if isHeadingLine l then [] else l)))

/-- `#allowExtract(markdown)`: the stripped length must exceed the
configured minimum. -/
def allowExtract (c : Catalog) (md : String) : Bool :=
  c.minLength < (stripHeadings md).length

/-- `getChunk(key, depth)`: resolve and normalize a single node's markdown,
or return nothing (`undefined`) when there is nothing to render. -/
def getChunk (c : Catalog) (key : String) (depth : Nat) : Option String :=
  match mdForExtract c (some key) depth with
  | none => none
  | some md => if md = "" then none else some (rewriteHeadings md depth)

/-! ### The tree (`tree-model` with `modelComparatorFn: Nugget.compare`) -/

/-- The model object carried by a tree node: `{ depth, chunks: [], ...nugget }`.
The root is parsed from `{ depth: 0, chunks: [], ...this.allNuggets.adit }`,
so when `adit` is absent from the lookup every nugget field is `undefined`. -/
structure NModel where
  _key : Option String
  _id : Option String
  label : Option String
  body : Option String
  nuggets : Option (List String)
  order : Option Int
  depth : Nat
  chunks : List String
deriving DecidableEq, Repr

/-- `tree.parse({ depth, chunks: [], ...nugget })`. -/
def nmodelOf (n : Nugget) (d : Nat) : NModel :=
  { _key := some n._key, _id := some n._id, label := some n.label,
    body := n.body, nuggets := n.nuggets, order := n.order,
    depth := d, chunks := [] }

mutual
inductive TmTree : Type where
  | node : NModel → TmList → TmTree
inductive TmList : Type where
  | nil : TmList
  | cons : TmTree → TmList → TmList
end

/-- The model of a tree node. -/
def modelOf : TmTree → NModel
  | .node m _ => m

/-- The children of a tree node. -/
def childrenOf : TmTree → TmList
  | .node _ cs => cs

/-- Three-way comparison of character lists (code-point order, as JS `<`
on strings). -/
def cmpChars : List Char → List Char → Int
  | [], [] => 0
  | [], _ :: _ => -1
  | _ :: _, [] => 1
  | a :: as, b :: bs =>
    if a.val < b.val then -1
    else if b.val < a.val then 1
    else cmpChars as bs

/-- Modelled from the spec: `Nugget.compare` (`lib/nugget` is not under
`src/`).  Spec §4.1: a node with a numeric `order` sorts before one
without; two ordered nodes compare numerically ascending; two unordered
nodes compare by `label` (code-point order); ties are broken by `key`.
The comparator receives the node models. -/
def nuggetCompare (a b : NModel) : Int :=
  let keyCmp := cmpChars (a._key.getD "").data (b._key.getD "").data
  match a.order, b.order with
  | some x, some y =>
    if x < y then -1 else if y < x then 1 else keyCmp
  | some _, none => -1
  | none, some _ => 1
  | none, none =>
    let lc := cmpChars (a.label.getD "").data (b.label.getD "").data
    if lc = 0 then keyCmp else lc

/-- `addChild` with a `modelComparatorFn` splices the new child in before
the first existing sibling that compares strictly greater
(`findInsertIndex` breaks at `comparatorFn(arr[i], el) > 0`). -/
def insertSorted (child : TmTree) : TmList → TmList
  | .nil => .cons child .nil
  | .cons x rest =>
    if 0 < nuggetCompare (modelOf x) (modelOf child)
    then .cons child (.cons x rest)
    else .cons x (insertSorted child rest)

/-- `current.addChild(...)` on the embedded tree. -/
def addChildT (t : TmTree) (child : TmTree) : TmTree :=
  match t with
  | .node m cs => .node m (insertSorted child cs)

mutual
/-- Whether the subtree rooted here contains a node with `model._key === k`
(what `current.first(n => n.model._key === key)` tests). -/
def containsKeyB : TmTree → String → Bool
  | .node m cs, k => m._key = some k || containsKeyLB cs k
def containsKeyLB : TmList → String → Bool
  | .nil, _ => false
  | .cons c rest, k => containsKeyB c k || containsKeyLB rest k
end

mutual
/-- Apply `f` to the pre-order-first node of the subtree whose key is `k`,
replacing that node's subtree by the result (`current.first(...)` followed
by work on the found node).  Pre-order explores a child's whole subtree
before its next sibling, so the branch is chosen by `containsKeyB`. -/
def modifyFirst (f : TmTree → Except JsErr TmTree) (k : String) : TmTree → Except JsErr TmTree
  | .node m cs =>
    if m._key = some k then f (.node m cs)
    else
      match modifyFirstL f k cs with
      | .ok cs' => .ok (.node m cs')
      | .error e => .error e
def modifyFirstL (f : TmTree → Except JsErr TmTree) (k : String) : TmList → Except JsErr TmList
  | .nil => .ok .nil
  | .cons c rest =>
    if containsKeyB c k then
      match modifyFirst f k c with
      | .ok c' => .ok (.cons c' rest)
      | .error e => .error e
    else
      match modifyFirstL f k rest with
      | .ok rest' => .ok (.cons c rest')
      | .error e => .error e
end

/-- One path of `getTree`'s cursor loop: walk the keys from the current
node; a key found in the current subtree (by pre-order `first`) is
descended into, otherwise the nugget is looked up (`assert.ok(nugget)` — a
miss throws an `AssertionError`), materialized at the running `depth`, and
attached; `depth` is incremented after every key either way. -/
def insertPath (nl : List (String × Nugget)) (t : TmTree) :
    List String → Nat → Except JsErr TmTree
  | [], _ => .ok t
  | k :: ks, d =>
    if containsKeyB t k then
      modifyFirst (fun sub => insertPath nl sub ks (d + 1)) k t
    else
      match List.lookup k nl with
      | none => .error .assertionError
      | some nug =>
        match insertPath nl (.node (nmodelOf nug d) .nil) ks (d + 1) with
        | .ok child => .ok (addChildT t child)
        | .error e => .error e

/-- The cursor loop of `getTree`, one iteration per returned path. -/
def insertPaths (nl : List (String × Nugget)) (t : TmTree) :
    List (List String) → Except JsErr TmTree
  | [] => .ok t
  | ks :: rest =>
    match insertPath nl t ks 1 with
    | .ok t' => insertPaths nl t' rest
    | .error e => .error e

/-- The root model: `tree.parse({ depth: 0, chunks: [], ...this.allNuggets.adit })`. -/
def rootModel (c : Catalog) : NModel :=
  match List.lookup "adit" c.allNuggets with
  | some n => nmodelOf n 0
  | none =>
    { _key := none, _id := none, label := none, body := none,
      nuggets := none, order := none, depth := 0, chunks := [] }

/-- `getTree()` on an already-enumerated list of key paths (each path is
the `'|'`-split `p.vertices[*]._key` of one cursor row, so it starts with
the root key `adit`). -/
def getTree (c : Catalog) (paths : List (List String)) : Except JsErr TmTree :=
  insertPaths c.allNuggets (.node (rootModel c) .nil) paths

/-- `node.hasChildren()`. -/
def tmHasChildren : TmList → Bool
  | .nil => false
  | .cons _ _ => true

mutual
/-- The chunk-collecting walk of `getOrdered()` in pre-order, keeping the
node model next to the markdown it contributed.  A bodyless childless node
whose `_id` starts with `passage` is skipped; on the root of an empty
catalog `node.model._id` is `undefined` and `.startsWith` raises a
`TypeError`.  A surviving node contributes when `#mdForExtract` yields a
truthy fragment that `#allowExtract` accepts. -/
def orderedPairs (c : Catalog) : TmTree → Except JsErr (List (NModel × String))
  | .node m cs => do
    let skip : Bool ←
      if !strTruthy m.body && !tmHasChildren cs then
        match m._id with
        | none => .error .typeError
        | some i => pure (strStarts i "passage")
      else pure false
    let tail ← orderedPairsL c cs
    if skip then pure tail
    else
      match mdForExtract c m._key m.depth with
      | some md =>
        if md ≠ "" && allowExtract c md then pure ((m, md) :: tail) else pure tail
      | none => pure tail
def orderedPairsL (c : Catalog) : TmList → Except JsErr (List (NModel × String))
  | .nil => pure []
  | .cons t rest => do
    let a ← orderedPairs c t
    let b ← orderedPairsL c rest
    pure (a ++ b)
end

/-- `getOrdered()`: build the tree from the cursor's paths and push
`rewriteHeadings(md, depth)` for every surviving node, in walk order. -/
def getOrderedFull (c : Catalog) (paths : List (List String)) :
    Except JsErr (List String) := do
  let t ← getTree c paths
  let ps ← orderedPairs c t
  pure (ps.map (fun pr => rewriteHeadings pr.2 pr.1.depth))

/-- A node with no children and an empty `chunks` list — the nodes
collected by `treeRoot.all(n => !n.hasChildren() && n.model.chunks.length === 0)`. -/
def isEmptyLeafB : TmTree → Bool
  | .node m cs => !tmHasChildren cs && m.chunks.isEmpty

mutual
/-- Whether any node of the subtree (including its root) is an empty leaf. -/
def hasEmptyLeafB : TmTree → Bool
  | .node m cs => (!tmHasChildren cs && m.chunks.isEmpty) || hasEmptyLeafL cs
def hasEmptyLeafL : TmList → Bool
  | .nil => false
  | .cons c rest => hasEmptyLeafB c || hasEmptyLeafL rest
end

mutual
/-- One iteration of the pruning loop of `getPaged()`: collect every empty
leaf and `drop()` each.  A dropped node is removed from its parent's
children; `drop()` on the root is a no-op in `tree-model`, so the root is
never removed. -/
def pruneStep : TmTree → TmTree
  | .node m cs => .node m (pruneKids cs)
def pruneKids : TmList → TmList
  | .nil => .nil
  | .cons c rest =>
    if isEmptyLeafB c then pruneKids rest
    else .cons (pruneStep c) (pruneKids rest)
end

/-- Termination of the `do { ... } while (len)` pruning loop of
`getPaged()`: the loop exits exactly when some iterate of the pruning step
has no empty leaf left. -/
def pruneLoopTerminates (t : TmTree) : Prop :=
  ∃ k, hasEmptyLeafB (pruneStep^[k] t) = false

mutual
/-- All node models of a subtree in pre-order. -/
def modelsT : TmTree → List NModel
  | .node m cs => m :: modelsL cs
def modelsL : TmList → List NModel
  | .nil => []
  | .cons c rest => modelsT c ++ modelsL rest
end

/-- The `_key`s of a node's direct children. -/
def childKeys : TmList → List (Option String)
  | .nil => []
  | .cons c rest => (modelOf c)._key :: childKeys rest

/-- Whether a list of optional keys contains a duplicate. -/
def hasDupB : List (Option String) → Bool
  | [] => false
  | k :: ks => ks.contains k || hasDupB ks

mutual
/-- Whether every node of the tree has pairwise-distinct child keys. -/
def childKeysDistinctB : TmTree → Bool
  | .node _ cs => !hasDupB (childKeys cs) && childKeysDistinctL cs
def childKeysDistinctL : TmList → Bool
  | .nil => true
  | .cons c rest => childKeysDistinctB c && childKeysDistinctL rest
end

/-- The number of nodes of the tree whose key is `k`. -/
def countKey (t : TmTree) (k : String) : Nat :=
  ((modelsT t).filter (fun m => m._key = some k)).length

mutual
/-- Whether every child's `depth` is its parent's `depth` plus one — the
claimed depth-assignment law. -/
def depthsParentPlusOneB : TmTree → Bool
  | .node m cs => childDepthsAre (m.depth + 1) cs
def childDepthsAre (d : Nat) : TmList → Bool
  | .nil => true
  | .cons c rest =>
    ((modelOf c).depth = d && depthsParentPlusOneB c) && childDepthsAre d rest
end

/-- The depth recorded on the (first, in pre-order) node keyed `k`. -/
def depthOfKey (t : TmTree) (k : String) : Option Nat :=
  ((modelsT t).filter (fun m => m._key = some k)).head?.map (·.depth)

/-! ### Well-formedness of the catalog, and concrete test catalogs

`init()` fills `allNuggets` with `this.allNuggets[c._key] = new Nugget(c)`,
so every association key equals its nugget's `_key`, and JS object keys are
unique. -/

/-- The shape `init()` gives the node-data lookup. -/
def wfAssoc (nl : List (String × Nugget)) : Prop :=
  (∀ p ∈ nl, p.2._key = p.1) ∧ (nl.map Prod.fst).Nodup

instance (nl : List (String × Nugget)) : Decidable (wfAssoc nl) := by
  unfold wfAssoc; infer_instance

/-- Keys of tree models are keys of the lookup (holds for every tree
`getTree` can build from a well-formed catalog). -/
def keyInv (nl : List (String × Nugget)) (t : TmTree) : Prop :=
  ∀ m ∈ modelsT t, ∀ k, m._key = some k → (List.lookup k nl).isSome

/-- A nugget literal without `order`. -/
def mkNug (k id lab : String) (b : Option String) (ns : Option (List String)) : Nugget :=
  { _key := k, _id := id, label := lab, body := b, nuggets := ns, order := none }

/-- Catalog for the C2 counterexample: the root and one child. -/
def cEx2 : Catalog :=
  { allNuggets := [("adit", mkNug "adit" "passage/adit" "Adit" none none),
                   ("a", mkNug "a" "nugget/a" "A" (some "body a") none)],
    seamNuggetChunks := [], minLength := 0, initialised := true }

/-- Catalog for the C3 counterexample. -/
def cEx3 : Catalog :=
  { allNuggets := [("adit", mkNug "adit" "passage/adit" "Adit" none none),
                   ("a", mkNug "a" "nugget/a" "A" (some "body a") none),
                   ("b", mkNug "b" "nugget/b" "B" (some "body b") none),
                   ("k", mkNug "k" "nugget/k" "K" (some "body k") none),
                   ("m", mkNug "m" "nugget/m" "M" (some "body m") none)],
    seamNuggetChunks := [], minLength := 0, initialised := true }

/-- Paths for the C3 counterexample: the second and third path share the
prefix `[adit, b, k]`, yet `k` was first materialized under `a`, outside
the subtree the later walks search. -/
def pEx3 : List (List String) := [["adit", "a", "k"], ["adit", "b", "k"], ["adit", "b", "k", "m"]]

/-- Catalog and paths for the C3 witness — the spec's own example shape. -/
def cW3 : Catalog :=
  { allNuggets := [("adit", mkNug "adit" "passage/adit" "Adit" none none),
                   ("a", mkNug "a" "nugget/a" "A" (some "body a") none),
                   ("b", mkNug "b" "nugget/b" "B" (some "body b") none),
                   ("c", mkNug "c" "nugget/c" "C" (some "body c") none)],
    seamNuggetChunks := [], minLength := 0, initialised := true }

def pW3 : List (List String) := [["adit", "a", "b"], ["adit", "a", "c"]]

/-- The tree the witness run builds. -/
def tW3 : TmTree :=
  (getTree cW3 pW3).toOption.getD (.node (rootModel cW3) .nil)

/-- An uninitialised catalog, fresh from the constructor. -/
def cEx4 : Catalog :=
  { allNuggets := [], seamNuggetChunks := [], minLength := 0, initialised := false }

/-- Catalog and paths for the C5 counterexample/witness: the path mentions
`"zz"`, which is absent from the lookup. -/
def cEx5 : Catalog :=
  { allNuggets := [("adit", mkNug "adit" "passage/adit" "Adit" none none),
                   ("a", mkNug "a" "nugget/a" "A" (some "body a") none)],
    seamNuggetChunks := [], minLength := 0, initialised := true }

def pEx5 : List (List String) := [["adit", "a"], ["adit", "zz"]]

/-- Catalog for C6 — the spec's composite example `S`, `x`, `y`. -/
def cEx6 : Catalog :=
  { allNuggets := [("S", mkNug "S" "nugget/S" "S" (some "S-body") (some ["x", "y"])),
                   ("x", mkNug "x" "nugget/x" "X-label" (some "X") none),
                   ("y", mkNug "y" "nugget/y" "Y-label" (some "Y") none)],
    seamNuggetChunks := [], minLength := 0, initialised := true }

/-- Catalog for the C7 counterexample: the seam `S` groups the key `p`,
whose node is a *passage* with a body. -/
def cEx7 : Catalog :=
  { allNuggets := [("adit", mkNug "adit" "passage/adit" "Adit" (some "Adit body text") none),
                   ("S", mkNug "S" "nugget/S" "S" (some "S-body") (some ["p"])),
                   ("p", mkNug "p" "passage/p" "P" (some "P-BODY-LONG") none)],
    seamNuggetChunks := [], minLength := 0, initialised := true }

/-- The C7 counterexample catalog after `populateChunks()`. -/
def cEx7' : Catalog := (populateChunks cEx7).toOption.getD cEx7

def pEx7 : List (List String) := [["adit"], ["adit", "S"], ["adit", "p"]]

/-- The contributing keys of a `getOrdered()` run, for reading off which
nodes produced chunks. -/
def orderedKeys (c : Catalog) (paths : List (List String)) :
    Except JsErr (List (Option String)) := do
  let t ← getTree c paths
  let ps ← orderedPairs c t
  pure (ps.map (fun pr => pr.1._key))

/-- Catalog for the C7 witness: a seam over two ordinary nuggets. -/
def cW7 : Catalog :=
  { allNuggets := [("adit", mkNug "adit" "passage/adit" "Adit" (some "Adit body text") none),
                   ("S", mkNug "S" "nugget/S" "S" (some "S-body") (some ["x", "y"])),
                   ("x", mkNug "x" "nugget/x" "X-label" (some "X") none),
                   ("y", mkNug "y" "nugget/y" "Y-label" (some "Y") none)],
    seamNuggetChunks := [], minLength := 0, initialised := true }

def cW7' : Catalog := (populateChunks cW7).toOption.getD cW7

/-- A pruned-state tree for the C8 witness: one chunked leaf under a root
with a child. -/
def tW8 : TmTree :=
  .node { _key := some "adit", _id := some "passage/adit", label := some "Adit",
          body := none, nuggets := none, order := none, depth := 0, chunks := [] }
    (.cons (.node { _key := some "a", _id := some "nugget/a", label := some "A",
                    body := some "body a", nuggets := none, order := none,
                    depth := 2, chunks := ["## A\n\nbody a"] } .nil) .nil)

/-- Empty catalog whose `getTree` yields the bare root of the C9
counterexample. -/
def cEx9 : Catalog :=
  { allNuggets := [], seamNuggetChunks := [], minLength := 0, initialised := true }

/-- The bare root: childless, empty `chunks` — the tree of an empty
catalog, and the state `getPaged()`'s pruning reaches when everything
prunes away. -/
def bareRoot : TmTree := .node (rootModel cEx9) .nil

/-- Catalog for the C10 witness: a passage with a body comfortably above
the minimum length. -/
def cW10 : Catalog :=
  { allNuggets := [("n", mkNug "n" "passage/n" "N" (some "Hello world text") none)],
    seamNuggetChunks := [], minLength := 3, initialised := true }

/-- A one-node tree holding that passage at depth 1. -/
def tW10 : TmTree := .node (nmodelOf (mkNug "n" "passage/n" "N" (some "Hello world text") none) 1) .nil

/-- Paths for the C2 counterexample and witness. -/
def pEx2 : List (List String) := [["adit", "a"]]

/-- The tree of the C2 run. -/
def tEx2 : TmTree := (getTree cEx2 pEx2).toOption.getD (.node (rootModel cEx2) .nil)

/-- Model of the C10 witness node. -/
def mW10 : NModel := nmodelOf (mkNug "n" "passage/n" "N" (some "Hello world text") none) 1

/-- Markdown that the C10 witness node contributes. -/
def mdW10 : String := "# N\n\nHello world text"

/-- `keyInv` over a children list. -/
def keyInvL (nl : List (String × Nugget)) (cs : TmList) : Prop :=
  ∀ m ∈ modelsL cs, ∀ k, m._key = some k → (List.lookup k nl).isSome

/-! ### Theorems -/

/-- C1: the claimed heading monotonicity fails on the code.  For the
fragment `"# a\n### b\n#### c"` at target depth 1 the pipeline produces the
final levels `[1, 2, 4]` — the third heading exceeds the previous *final*
level 2 by 2, because the source updates its running `last` with the
pre-clamp level (`last = l`) instead of the emitted one (`last = ret`).
The fragment is rewritten to `"# a\n## b\n#### c"`. -/
theorem c1_heading_monotonicity_bug :
    rewriteHeadings "# a\n### b\n#### c" 1 = "# a\n## b\n#### c" ∧
      finalHeadingLevels "# a\n### b\n#### c" 1 = [1, 2, 4] ∧
      stepOk [1, 2, 4] = false :=
  ⟨rfl, rfl, rfl⟩

/-- A node with no empty leaf anywhere is in particular not an empty leaf
itself. -/
theorem isEmptyLeaf_false_of_hasEmpty_false (c : TmTree)
    (h : hasEmptyLeafB c = false) : isEmptyLeafB c = false := by
  cases c with
  | node m cs =>
    simp only [hasEmptyLeafB, Bool.or_eq_false_iff] at h
    simpa [isEmptyLeafB] using h.1

mutual
/-- The pruning step is the identity on a tree with no empty leaf. -/
theorem pruneStep_fix : (t : TmTree) → hasEmptyLeafB t = false → pruneStep t = t
  | .node m cs, h => by
    simp only [hasEmptyLeafB, Bool.or_eq_false_iff] at h
    simp only [pruneStep, pruneKids_fix cs h.2]
theorem pruneKids_fix : (cs : TmList) → hasEmptyLeafL cs = false → pruneKids cs = cs
  | .nil, _ => rfl
  | .cons c rest, h => by
    simp only [hasEmptyLeafL, Bool.or_eq_false_iff] at h
    simp only [pruneKids, isEmptyLeaf_false_of_hasEmpty_false c h.1,
      pruneStep_fix c h.1, pruneKids_fix rest h.2, Bool.false_eq_true, if_false]
end

/-- C8: the empty-leaf pruning step is idempotent at the loop's fixpoint.
When the `do/while` loop of `getPaged()` has exited, the tree has no empty
leaf (`emptyLeaves.length === 0` was just observed), and applying the
collect-and-drop step once more removes no node. -/
theorem c8_pruning_fixpoint (t : TmTree) (h : hasEmptyLeafB t = false) :
    pruneStep t = t :=
  pruneStep_fix t h

/-- C8 witness: a concrete pruned tree (a root with one chunked leaf) on
which another pruning pass is a no-op. -/
theorem c8_pruning_fixpoint_witness : pruneStep tW8 = tW8 :=
  c8_pruning_fixpoint tW8 (by rfl)

/-- C9: the pruning loop of `getPaged()` does NOT terminate on the bare
root.  `treeRoot.all(...)` includes the root, a childless root with empty
`chunks` is collected on every iteration, and `drop()` on a root is a
no-op in `tree-model`, so `len` never reaches 0.  The bare root is exactly
the tree of an empty catalog. -/
theorem c9_pruning_nontermination :
    getTree cEx9 [] = .ok bareRoot ∧ ¬ pruneLoopTerminates bareRoot := by
  refine ⟨rfl, ?_⟩
  have hfix : ∀ k, pruneStep^[k] bareRoot = bareRoot := by
    intro k
    induction k with
    | zero => rfl
    | succ n ih => rw [Function.iterate_succ_apply, show pruneStep bareRoot = bareRoot from rfl, ih]
  rintro ⟨k, hk⟩
  rw [hfix k] at hk
  exact absurd hk (by decide)

/-- C4 (amended): of the retrieval operations only `populateChunks` checks
initialisation; it throws `Error('must call init() first')` before `init()`
has completed.  `getChunk` never consults the flag at all: its result is
unchanged if the flag is flipped. -/
theorem c4_only_populateChunks_checks_init (c : Catalog)
    (h : c.initialised = false) :
    populateChunks c = .error (.errorMsg "must call init() first") ∧
      ∀ k d, getChunk c k d = getChunk { c with initialised := true } k d := by
  constructor
  · simp [populateChunks, h]
  · intro k d
    rfl

/-- C4 witness: the amended theorem at a freshly constructed catalog. -/
theorem c4_only_populateChunks_checks_init_witness :
    populateChunks cEx4 = .error (.errorMsg "must call init() first") :=
  (c4_only_populateChunks_checks_init cEx4 rfl).1

/-- C4 counterexample: on an uninitialised catalog, `getChunk` simply
returns `undefined` (a normal result, no error of any kind — its JS body
calls nothing that can throw), and `getOrdered` fails with a `TypeError`
(from `node.model._id.startsWith` on the bare root), not with the
illegal-state error.  So not every retrieval operation invoked before
`init()` fails with an illegal-state error. -/
theorem c4_counterexample :
    cEx4.initialised = false ∧
      getChunk cEx4 "x" 1 = none ∧
      getOrderedFull cEx4 [] = .error .typeError :=
  ⟨rfl, rfl, rfl⟩

/-- C6 (amended): `populateChunks` records under `S`'s key exactly
`"\nS-body\nX\nY"` — the seam's own body and then each grouped body in
`groupedKeys` order, all newline-separated, with a *leading* newline
because the accumulator of `getMd` starts as the empty string
(`['', 'S-body'].join('\n') = "\nS-body"`). -/
theorem c6_composite_chunk_value :
    Except.map Catalog.seamNuggetChunks (populateChunks cEx6)
      = .ok [("S", "\nS-body\nX\nY")] :=
  rfl

/-- C6 counterexample: the chunk recorded under `S`'s key is
`"\nS-body\nX\nY"`, not the claimed `"S-body\nX\nY"`. -/
theorem c6_counterexample :
    Except.map (fun c' => List.lookup "S" c'.seamNuggetChunks) (populateChunks cEx6)
      = .ok (some "\nS-body\nX\nY") ∧
      (some "\nS-body\nX\nY" : Option String) ≠ some "S-body\nX\nY" :=
  ⟨rfl, by decide⟩


/-- How the `getOrdered()` walk extends the collected list at one node: it
either keeps the tail, or conses the node's own `(model, md)` pair after
both gates passed. -/
theorem opNode_tail (c : Catalog) (m0 : NModel) (tail ps : List (NModel × String))
    (h : (match mdForExtract c m0._key m0.depth with
          | some md0 =>
            if (decide (md0 ≠ "") && allowExtract c md0) = true
            then pure ((m0, md0) :: tail) else pure tail
          | none => (pure tail : Except JsErr (List (NModel × String)))) = .ok ps) :
    ps = tail ∨
      ∃ md0, ps = (m0, md0) :: tail ∧ mdForExtract c m0._key m0.depth = some md0 ∧
        md0 ≠ "" ∧ allowExtract c md0 = true := by
  rcases hmd : mdForExtract c m0._key m0.depth with _ | md0
  · rw [hmd] at h
    simp only [pure, Except.pure, Except.ok.injEq] at h
    exact Or.inl h.symm
  · rw [hmd] at h
    dsimp only at h
    by_cases hgate : (decide (md0 ≠ "") && allowExtract c md0) = true
    · rw [if_pos hgate] at h
      simp only [pure, Except.pure, Except.ok.injEq] at h
      rcases Bool.and_eq_true_iff.mp hgate with ⟨hne, hal⟩
      exact Or.inr ⟨md0, h.symm, rfl, by simpa using hne, hal⟩
    · rw [if_neg hgate] at h
      simp only [pure, Except.pure, Except.ok.injEq] at h
      exact Or.inl h.symm
mutual
/-- Every pair collected by the `getOrdered()` walk passed both gates: its
markdown came from `#mdForExtract` at that node's key and depth, it is
truthy, and `#allowExtract` accepted it. -/
theorem opT_mem (c : Catalog) : (t : TmTree) → (ps : List (NModel × String)) →
    orderedPairs c t = .ok ps → ∀ m md, (m, md) ∈ ps →
      mdForExtract c m._key m.depth = some md ∧ md ≠ "" ∧ allowExtract c md = true
  | .node m0 cs, ps, h, m, md, hmem => by
    rw [orderedPairs] at h
    simp only [Bind.bind, Except.bind, pure, Except.pure] at h
    by_cases hcond : (!strTruthy m0.body && !tmHasChildren cs) = true
    · rw [if_pos hcond] at h
      rcases hid : m0._id with _ | i
      · rw [hid] at h; cases h
      · rw [hid] at h
        dsimp only at h
        rcases htl : orderedPairsL c cs with e | tail
        · rw [htl] at h; cases h
        · rw [htl] at h
          dsimp only at h
          by_cases hpass : strStarts i "passage" = true
          · rw [if_pos hpass] at h
            injection h with h
            subst h
            exact opL_mem c cs tail htl m md hmem
          · rw [if_neg hpass] at h
            rcases opNode_tail c m0 tail ps h with hps | ⟨md0, hps, hmd, hne, hal⟩
            · subst hps
              exact opL_mem c cs _ htl m md hmem
            · subst hps
              rcases List.mem_cons.mp hmem with hhd | htlmem
              · rw [Prod.mk.injEq] at hhd
                obtain ⟨hm, hmd'⟩ := hhd
                subst hm; subst hmd'
                exact ⟨hmd, hne, hal⟩
              · exact opL_mem c cs tail htl m md htlmem
    · rw [if_neg hcond] at h
      rcases htl : orderedPairsL c cs with e | tail
      · rw [htl] at h; cases h
      · rw [htl] at h
        dsimp only at h
        simp only [Bool.false_eq_true, if_false] at h
        rcases opNode_tail c m0 tail ps h with hps | ⟨md0, hps, hmd, hne, hal⟩
        · subst hps
          exact opL_mem c cs _ htl m md hmem
        · subst hps
          rcases List.mem_cons.mp hmem with hhd | htlmem
          · rw [Prod.mk.injEq] at hhd
            obtain ⟨hm, hmd'⟩ := hhd
            subst hm; subst hmd'
            exact ⟨hmd, hne, hal⟩
          · exact opL_mem c cs tail htl m md htlmem
theorem opL_mem (c : Catalog) : (cs : TmList) → (ps : List (NModel × String)) →
    orderedPairsL c cs = .ok ps → ∀ m md, (m, md) ∈ ps →
      mdForExtract c m._key m.depth = some md ∧ md ≠ "" ∧ allowExtract c md = true
  | .nil, ps, h, m, md, hmem => by
    rw [orderedPairsL] at h
    simp only [pure, Except.pure, Except.ok.injEq] at h
    subst h
    cases hmem
  | .cons t rest, ps, h, m, md, hmem => by
    rw [orderedPairsL] at h
    simp only [Bind.bind, Except.bind, pure, Except.pure] at h
    rcases ha : orderedPairs c t with e | a
    · rw [ha] at h; cases h
    · rw [ha] at h
      dsimp only at h
      rcases hb : orderedPairsL c rest with e | b
      · rw [hb] at h; cases h
      · rw [hb] at h
        dsimp only at h
        injection h with h
        subst h
        rcases List.mem_append.mp hmem with hin | hin
        · exact opT_mem c t a ha m md hin
        · exact opL_mem c rest b hb m md hin
end

/-- C10: the minimum-length gate.  Every pair the `getOrdered()` walk kept
satisfies `stripped.length > minLength`, so a node whose normalized
markdown has stripped length below the configured minimum is never among
the contributions — it is excluded from `getOrdered()` even when reachable
and unfiltered. -/
theorem c10_min_length_exclusion (c : Catalog) (t : TmTree)
    (ps : List (NModel × String)) (m : NModel) (md : String)
    (h : orderedPairs c t = .ok ps) (hm : (m, md) ∈ ps) :
    ¬ (stripHeadings md).length < c.minLength := by
  have hal := (opT_mem c t ps h m md hm).2.2
  simp only [allowExtract, decide_eq_true_eq] at hal
  omega

/-- C10 witness: a concrete catalog with `minLength = 3` and a surviving
node whose stripped markdown is 18 characters long. -/
theorem c10_min_length_exclusion_witness :
    ¬ (stripHeadings mdW10).length < cW10.minLength :=
  c10_min_length_exclusion cW10 tW10 [(mW10, mdW10)] mW10 mdW10 rfl (by decide)

/-- A successful association-list lookup exhibits a member pair. -/
theorem lookup_mem {nl : List (String × Nugget)} {k : String} {v : Nugget}
    (h : List.lookup k nl = some v) : (k, v) ∈ nl := by
  induction nl with
  | nil => cases h
  | cons p rest ih =>
    rw [List.lookup] at h
    by_cases hk : (k == p.1) = true
    · rw [hk] at h
      dsimp only at h
      injection h with h
      have hp : p = (k, v) := by
        rw [show p = (p.1, p.2) from rfl, h, eq_of_beq hk]
      rw [hp]
      exact List.mem_cons_self _ _
    · rw [Bool.not_eq_true] at hk
      rw [hk] at h
      dsimp only at h
      exact List.mem_cons_of_mem p (ih h)

/-- In a well-formed lookup, the found nugget's `_key` is the key looked
up. -/
theorem lookup_key_eq {nl : List (String × Nugget)} (hwf : wfAssoc nl)
    {k : String} {v : Nugget} (h : List.lookup k nl = some v) : v._key = k :=
  hwf.1 (k, v) (lookup_mem h)

/-- Membership in the models of a comparator-sorted insertion. -/
theorem mem_modelsL_insertSorted (child : TmTree) :
    (cs : TmList) → (m : NModel) →
    (m ∈ modelsL (insertSorted child cs) ↔ m ∈ modelsT child ∨ m ∈ modelsL cs)
  | .nil, m => by simp [insertSorted, modelsL]
  | .cons x rest, m => by
    rw [insertSorted]
    by_cases hcmp : 0 < nuggetCompare (modelOf x) (modelOf child)
    · rw [if_pos hcmp]
      simp [modelsL, List.mem_append]
    · rw [if_neg hcmp]
      simp only [modelsL, List.mem_append, mem_modelsL_insertSorted child rest m]
      tauto

mutual
/-- A positive `containsKeyB` exhibits a model with that key. -/
theorem containsKey_models : (t : TmTree) → (k : String) → containsKeyB t k = true →
    ∃ m ∈ modelsT t, m._key = some k
  | .node m0 cs, k, h => by
    rw [containsKeyB] at h
    rcases Bool.or_eq_true_iff.mp h with h1 | h2
    · exact ⟨m0, by simp [modelsT], of_decide_eq_true h1⟩
    · obtain ⟨m, hm, hk⟩ := containsKeyL_models cs k h2
      exact ⟨m, by simp [modelsT, List.mem_cons]; right; exact hm, hk⟩
theorem containsKeyL_models : (cs : TmList) → (k : String) → containsKeyLB cs k = true →
    ∃ m ∈ modelsL cs, m._key = some k
  | .cons c rest, k, h => by
    rw [containsKeyLB] at h
    rcases Bool.or_eq_true_iff.mp h with h1 | h2
    · obtain ⟨m, hm, hk⟩ := containsKey_models c k h1
      exact ⟨m, by simp [modelsL, List.mem_append]; left; exact hm, hk⟩
    · obtain ⟨m, hm, hk⟩ := containsKeyL_models rest k h2
      exact ⟨m, by simp [modelsL, List.mem_append]; right; exact hm, hk⟩
end

mutual
/-- A model with key `k` forces `containsKeyB` to be positive. -/
theorem models_containsKey : (t : TmTree) → (k : String) → (m : NModel) →
    m ∈ modelsT t → m._key = some k → containsKeyB t k = true
  | .node m0 cs, k, m, hm, hk => by
    rw [containsKeyB]
    rw [modelsT, List.mem_cons] at hm
    rcases hm with h1 | h2
    · subst h1
      exact Bool.or_eq_true_iff.mpr (Or.inl (decide_eq_true hk))
    · exact Bool.or_eq_true_iff.mpr (Or.inr (modelsL_containsKey cs k m h2 hk))
theorem modelsL_containsKey : (cs : TmList) → (k : String) → (m : NModel) →
    m ∈ modelsL cs → m._key = some k → containsKeyLB cs k = true
  | .cons c rest, k, m, hm, hk => by
    rw [containsKeyLB]
    rw [modelsL, List.mem_append] at hm
    rcases hm with h1 | h2
    · exact Bool.or_eq_true_iff.mpr (Or.inl (models_containsKey c k m h1 hk))
    · exact Bool.or_eq_true_iff.mpr (Or.inr (modelsL_containsKey rest k m h2 hk))
end

/-- `keyInv` distributes to the children list. -/
theorem keyInv_children (nl : List (String × Nugget)) (m0 : NModel) (cs : TmList)
    (h : keyInv nl (.node m0 cs)) : keyInvL nl cs := by
  intro m hm
  exact h m (by rw [modelsT, List.mem_cons]; right; exact hm)

/-- `keyInvL` distributes over `cons`. -/
theorem keyInvL_cons (nl : List (String × Nugget)) (c : TmTree) (rest : TmList)
    (h : keyInvL nl (.cons c rest)) : keyInv nl c ∧ keyInvL nl rest := by
  constructor
  · intro m hm
    exact h m (by rw [modelsL, List.mem_append]; left; exact hm)
  · intro m hm
    exact h m (by rw [modelsL, List.mem_append]; right; exact hm)

/-- `modifyFirst` preserves the modified node's own model whenever `f`
does (only the top node matters: deeper replacements keep the parent's
model untouched). -/
theorem modifyFirst_model (f : TmTree → Except JsErr TmTree) (k : String)
    (hf : ∀ s s', f s = .ok s' → modelOf s' = modelOf s) (t t' : TmTree)
    (h : modifyFirst f k t = .ok t') : modelOf t' = modelOf t := by
  cases t with
  | node m0 cs =>
    rw [modifyFirst] at h
    by_cases hk : m0._key = some k
    · rw [if_pos hk] at h
      exact hf _ _ h
    · rw [if_neg hk] at h
      rcases hcs : modifyFirstL f k cs with e | cs'
      · rw [hcs] at h; cases h
      · rw [hcs] at h
        dsimp only at h
        injection h with h
        rw [← h]
        rfl

mutual
/-- If `f` always succeeds, so does `modifyFirst`. -/
theorem modifyFirst_total (f : TmTree → Except JsErr TmTree) (k : String)
    (hf : ∀ s, ∃ r, f s = .ok r) :
    (t : TmTree) → ∃ t', modifyFirst f k t = .ok t'
  | .node m0 cs => by
    rw [modifyFirst]
    by_cases hk : m0._key = some k
    · rw [if_pos hk]
      exact hf _
    · rw [if_neg hk]
      obtain ⟨cs', hcs⟩ := modifyFirstL_total f k hf cs
      rw [hcs]
      exact ⟨_, rfl⟩
theorem modifyFirstL_total (f : TmTree → Except JsErr TmTree) (k : String)
    (hf : ∀ s, ∃ r, f s = .ok r) :
    (cs : TmList) → ∃ cs', modifyFirstL f k cs = .ok cs'
  | .nil => ⟨.nil, rfl⟩
  | .cons c rest => by
    rw [modifyFirstL]
    by_cases hc : containsKeyB c k = true
    · rw [if_pos hc]
      obtain ⟨c', h1⟩ := modifyFirst_total f k hf c
      rw [h1]
      exact ⟨_, rfl⟩
    · rw [if_neg hc]
      obtain ⟨rest', h2⟩ := modifyFirstL_total f k hf rest
      rw [h2]
      exact ⟨_, rfl⟩
end

mutual
/-- `modifyFirst` only grows the model set whenever `f` does. -/
theorem modifyFirst_mono (f : TmTree → Except JsErr TmTree) (k : String)
    (hf : ∀ s s', f s = .ok s' → ∀ m ∈ modelsT s, m ∈ modelsT s') :
    (t t' : TmTree) → modifyFirst f k t = .ok t' →
      ∀ m ∈ modelsT t, m ∈ modelsT t'
  | .node m0 cs, t', h, m, hm => by
    rw [modifyFirst] at h
    by_cases hk : m0._key = some k
    · rw [if_pos hk] at h
      exact hf _ _ h m hm
    · rw [if_neg hk] at h
      rcases hcs : modifyFirstL f k cs with e | cs'
      · rw [hcs] at h; cases h
      · rw [hcs] at h
        dsimp only at h
        injection h with h
        subst h
        rw [modelsT, List.mem_cons] at hm ⊢
        rcases hm with h1 | h2
        · exact Or.inl h1
        · exact Or.inr (modifyFirstL_mono f k hf cs cs' hcs m h2)
theorem modifyFirstL_mono (f : TmTree → Except JsErr TmTree) (k : String)
    (hf : ∀ s s', f s = .ok s' → ∀ m ∈ modelsT s, m ∈ modelsT s') :
    (cs cs' : TmList) → modifyFirstL f k cs = .ok cs' →
      ∀ m ∈ modelsL cs, m ∈ modelsL cs'
  | .nil, cs', h, m, hm => by cases hm
  | .cons c rest, cs', h, m, hm => by
    rw [modifyFirstL] at h
    rw [modelsL, List.mem_append] at hm
    by_cases hc : containsKeyB c k = true
    · rw [if_pos hc] at h
      rcases h1 : modifyFirst f k c with e | c'
      · rw [h1] at h; cases h
      · rw [h1] at h
        dsimp only at h
        injection h with h
        subst h
        rw [modelsL, List.mem_append]
        rcases hm with hin | hin
        · exact Or.inl (modifyFirst_mono f k hf c c' h1 m hin)
        · exact Or.inr hin
    · rw [if_neg hc] at h
      rcases h2 : modifyFirstL f k rest with e | rest'
      · rw [h2] at h; cases h
      · rw [h2] at h
        dsimp only at h
        injection h with h
        subst h
        rw [modelsL, List.mem_append]
        rcases hm with hin | hin
        · exact Or.inl hin
        · exact Or.inr (modifyFirstL_mono f k hf rest rest' h2 m hin)
end

mutual
/-- Every model of a `modifyFirst` result is an old model or a model `f`
introduced (`P` abstracts the shape of the new models). -/
theorem modifyFirst_new (f : TmTree → Except JsErr TmTree) (k : String) (P : NModel → Prop)
    (hf : ∀ s s', f s = .ok s' → ∀ m ∈ modelsT s', m ∈ modelsT s ∨ P m) :
    (t t' : TmTree) → modifyFirst f k t = .ok t' →
      ∀ m ∈ modelsT t', m ∈ modelsT t ∨ P m
  | .node m0 cs, t', h, m, hm => by
    rw [modifyFirst] at h
    by_cases hk : m0._key = some k
    · rw [if_pos hk] at h
      exact hf _ _ h m hm
    · rw [if_neg hk] at h
      rcases hcs : modifyFirstL f k cs with e | cs'
      · rw [hcs] at h; cases h
      · rw [hcs] at h
        dsimp only at h
        injection h with h
        subst h
        rw [modelsT, List.mem_cons] at hm
        rcases hm with h1 | h2
        · exact Or.inl (by rw [modelsT, List.mem_cons]; exact Or.inl h1)
        · rcases modifyFirstL_new f k P hf cs cs' hcs m h2 with hin | hp
          · exact Or.inl (by rw [modelsT, List.mem_cons]; exact Or.inr hin)
          · exact Or.inr hp
theorem modifyFirstL_new (f : TmTree → Except JsErr TmTree) (k : String) (P : NModel → Prop)
    (hf : ∀ s s', f s = .ok s' → ∀ m ∈ modelsT s', m ∈ modelsT s ∨ P m) :
    (cs cs' : TmList) → modifyFirstL f k cs = .ok cs' →
      ∀ m ∈ modelsL cs', m ∈ modelsL cs ∨ P m
  | .nil, cs', h, m, hm => by
    rw [modifyFirstL] at h
    injection h with h
    subst h
    cases hm
  | .cons c rest, cs', h, m, hm => by
    rw [modifyFirstL] at h
    by_cases hc : containsKeyB c k = true
    · rw [if_pos hc] at h
      rcases h1 : modifyFirst f k c with e | c'
      · rw [h1] at h; cases h
      · rw [h1] at h
        dsimp only at h
        injection h with h
        subst h
        rw [modelsL, List.mem_append] at hm
        rcases hm with hin | hin
        · rcases modifyFirst_new f k P hf c c' h1 m hin with ho | hp
          · exact Or.inl (by rw [modelsL, List.mem_append]; exact Or.inl ho)
          · exact Or.inr hp
        · exact Or.inl (by rw [modelsL, List.mem_append]; exact Or.inr hin)
    · rw [if_neg hc] at h
      rcases h2 : modifyFirstL f k rest with e | rest'
      · rw [h2] at h; cases h
      · rw [h2] at h
        dsimp only at h
        injection h with h
        subst h
        rw [modelsL, List.mem_append] at hm
        rcases hm with hin | hin
        · exact Or.inl (by rw [modelsL, List.mem_append]; exact Or.inl hin)
        · rcases modifyFirstL_new f k P hf rest rest' h2 m hin with ho | hp
          · exact Or.inl (by rw [modelsL, List.mem_append]; exact Or.inr ho)
          · exact Or.inr hp
end

mutual
/-- If `f` fails (with `e`) on every key-invariant subtree, `modifyFirst`
fails with `e` whenever the key is present in the subtree. -/
theorem modifyFirst_err (nl : List (String × Nugget)) (f : TmTree → Except JsErr TmTree)
    (k : String) (e : JsErr) (hf : ∀ s, keyInv nl s → f s = .error e) :
    (t : TmTree) → keyInv nl t → containsKeyB t k = true →
      modifyFirst f k t = .error e
  | .node m0 cs, hinv, hcon => by
    rw [modifyFirst]
    by_cases hk : m0._key = some k
    · rw [if_pos hk]
      exact hf _ hinv
    · rw [if_neg hk]
      rw [containsKeyB, Bool.or_eq_true_iff] at hcon
      rcases hcon with h1 | h2
      · exact absurd (of_decide_eq_true h1) hk
      · rw [modifyFirstL_err nl f k e hf cs (keyInv_children nl m0 cs hinv) h2]
theorem modifyFirstL_err (nl : List (String × Nugget)) (f : TmTree → Except JsErr TmTree)
    (k : String) (e : JsErr) (hf : ∀ s, keyInv nl s → f s = .error e) :
    (cs : TmList) → keyInvL nl cs → containsKeyLB cs k = true →
      modifyFirstL f k cs = .error e
  | .cons c rest, hinv, hcon => by
    rw [modifyFirstL]
    obtain ⟨hic, hir⟩ := keyInvL_cons nl c rest hinv
    by_cases hc : containsKeyB c k = true
    · rw [if_pos hc]
      rw [modifyFirst_err nl f k e hf c hic hc]
    · rw [if_neg hc]
      rw [containsKeyLB, Bool.or_eq_true_iff] at hcon
      rcases hcon with h1 | h2
      · exact absurd h1 hc
      · rw [modifyFirstL_err nl f k e hf rest hir h2]
end

/-- Models of a tree after `addChild`. -/
theorem mem_models_addChild (t child : TmTree) (m : NModel) :
    m ∈ modelsT (addChildT t child) ↔ m ∈ modelsT t ∨ m ∈ modelsT child := by
  cases t with
  | node m0 cs =>
    simp only [addChildT, modelsT, List.mem_cons, mem_modelsL_insertSorted]
    tauto

/-- A path insertion leaves the model of the node it starts from
unchanged (only children are added below it). -/
theorem ip_model (nl : List (String × Nugget)) :
    (ks : List String) → (d : Nat) → (t t' : TmTree) →
      insertPath nl t ks d = .ok t' → modelOf t' = modelOf t
  | [], d, t, t', h => by
    rw [insertPath] at h
    injection h with h
    rw [← h]
  | k :: ks, d, t, t', h => by
    rw [insertPath] at h
    by_cases hc : containsKeyB t k = true
    · rw [if_pos hc] at h
      exact modifyFirst_model _ k (fun s s' hs => ip_model nl ks (d + 1) s s' hs) t t' h
    · rw [if_neg hc] at h
      rcases hl : List.lookup k nl with _ | nug
      · rw [hl] at h; cases h
      · rw [hl] at h
        dsimp only at h
        rcases h2 : insertPath nl (.node (nmodelOf nug d) .nil) ks (d + 1) with e | child
        · rw [h2] at h; cases h
        · rw [h2] at h
          dsimp only at h
          injection h with h
          subst h
          cases t with
          | node m0 cs => rfl

/-- A path insertion only adds models. -/
theorem ip_mono (nl : List (String × Nugget)) :
    (ks : List String) → (d : Nat) → (t t' : TmTree) →
      insertPath nl t ks d = .ok t' → ∀ m ∈ modelsT t, m ∈ modelsT t'
  | [], d, t, t', h, m, hm => by
    rw [insertPath] at h
    injection h with h
    rw [← h]
    exact hm
  | k :: ks, d, t, t', h, m, hm => by
    rw [insertPath] at h
    by_cases hc : containsKeyB t k = true
    · rw [if_pos hc] at h
      exact modifyFirst_mono _ k (fun s s' hs => ip_mono nl ks (d + 1) s s' hs) t t' h m hm
    · rw [if_neg hc] at h
      rcases hl : List.lookup k nl with _ | nug
      · rw [hl] at h; cases h
      · rw [hl] at h
        dsimp only at h
        rcases h2 : insertPath nl (.node (nmodelOf nug d) .nil) ks (d + 1) with e | child
        · rw [h2] at h; cases h
        · rw [h2] at h
          dsimp only at h
          injection h with h
          subst h
          exact (mem_models_addChild t child m).mpr (Or.inl hm)

/-- Every model of the result of a path insertion is an old model or a
nugget of the lookup materialized at depth `d + i`, where `i` is the
0-based position of its key in the inserted path segment. -/
theorem ip_new (nl : List (String × Nugget)) :
    (ks : List String) → (d : Nat) → (t t' : TmTree) →
      insertPath nl t ks d = .ok t' → ∀ m ∈ modelsT t',
        m ∈ modelsT t ∨ ∃ i, i < ks.length ∧ ∃ nug,
          List.lookup (ks.getD i "") nl = some nug ∧ m = nmodelOf nug (d + i)
  | [], d, t, t', h, m, hm => by
    rw [insertPath] at h
    injection h with h
    subst h
    exact Or.inl hm
  | k :: ks, d, t, t', h, m, hm => by
    rw [insertPath] at h
    by_cases hc : containsKeyB t k = true
    · rw [if_pos hc] at h
      rcases modifyFirst_new _ k _ (fun s s' hs => ip_new nl ks (d + 1) s s' hs) t t' h m hm with
        ho | ⟨i, hi, nug, hl, hmeq⟩
      · exact Or.inl ho
      · refine Or.inr ⟨i + 1, by simpa using Nat.succ_lt_succ hi, nug, ?_, ?_⟩
        · simpa [List.getD_cons_succ] using hl
        · rw [hmeq, Nat.add_assoc, Nat.add_comm 1 i]
    · rw [if_neg hc] at h
      rcases hl : List.lookup k nl with _ | nug
      · rw [hl] at h; cases h
      · rw [hl] at h
        dsimp only at h
        rcases h2 : insertPath nl (.node (nmodelOf nug d) .nil) ks (d + 1) with e | child
        · rw [h2] at h; cases h
        · rw [h2] at h
          dsimp only at h
          injection h with h
          subst h
          rcases (mem_models_addChild t child m).mp hm with ho | hchild
          · exact Or.inl ho
          · rcases ip_new nl ks (d + 1) _ child h2 m hchild with hbase | ⟨i, hi, nug', hl', hmeq⟩
            · rw [modelsT, modelsL, List.mem_cons] at hbase
              rcases hbase with hb | hb
              · refine Or.inr ⟨0, by simp, nug, by simpa using hl, ?_⟩
                rw [hb, Nat.add_zero]
              · cases hb
            · refine Or.inr ⟨i + 1, by simpa using Nat.succ_lt_succ hi, nug', ?_, ?_⟩
              · simpa [List.getD_cons_succ] using hl'
              · rw [hmeq, Nat.add_assoc, Nat.add_comm 1 i]

/-- In a well-formed catalog, path insertion preserves the key
invariant. -/
theorem ip_keyInv (nl : List (String × Nugget)) (hwf : wfAssoc nl)
    (ks : List String) (d : Nat) (t t' : TmTree)
    (h : insertPath nl t ks d = .ok t') (hinv : keyInv nl t) : keyInv nl t' := by
  intro m hm k hk
  rcases ip_new nl ks d t t' h m hm with ho | ⟨i, _, nug, hl, hmeq⟩
  · exact hinv m ho k hk
  · subst hmeq
    have h1 : nug._key = ks.getD i "" := lookup_key_eq hwf hl
    have h2 : nug._key = k := by
      simpa [nmodelOf] using hk
    rw [← h2, h1, hl]
    rfl

/-- A path whose every key is present in the lookup always inserts
successfully. -/
theorem ip_total (nl : List (String × Nugget)) :
    (ks : List String) → (d : Nat) → (t : TmTree) →
      (∀ k ∈ ks, (List.lookup k nl).isSome) → ∃ t', insertPath nl t ks d = .ok t'
  | [], d, t, _ => ⟨t, rfl⟩
  | k :: ks, d, t, hall => by
    rw [insertPath]
    have htail : ∀ j ∈ ks, (List.lookup j nl).isSome :=
      fun j hj => hall j (List.mem_cons_of_mem k hj)
    by_cases hc : containsKeyB t k = true
    · rw [if_pos hc]
      exact modifyFirst_total _ k (fun s => ip_total nl ks (d + 1) s htail) t
    · rw [if_neg hc]
      have hk : (List.lookup k nl).isSome := hall k (List.mem_cons_self k ks)
      rcases hlk : List.lookup k nl with _ | nug
      · rw [hlk] at hk; cases hk
      · dsimp only
        obtain ⟨child, h2⟩ := ip_total nl ks (d + 1) (.node (nmodelOf nug d) .nil) htail
        rw [h2]
        exact ⟨_, rfl⟩

/-- Inserting a path that mentions a key absent from a well-formed lookup
raises the `assert.ok` failure. -/
theorem ip_missing (nl : List (String × Nugget)) (hwf : wfAssoc nl) :
    (ks : List String) → (d : Nat) → (t : TmTree) → keyInv nl t →
      (∃ k ∈ ks, List.lookup k nl = none) →
      insertPath nl t ks d = .error .assertionError
  | [], _, _, _, hmiss => by
    rcases hmiss with ⟨k, hk, _⟩
    cases hk
  | k0 :: ks, d, t, hinv, hmiss => by
    rw [insertPath]
    by_cases h0 : List.lookup k0 nl = none
    · have hc : containsKeyB t k0 = false := by
        by_contra hcc
        rw [Bool.not_eq_false] at hcc
        obtain ⟨m, hm, hkm⟩ := containsKey_models t k0 hcc
        have hs := hinv m hm k0 hkm
        rw [h0] at hs
        cases hs
      rw [if_neg (by rw [hc]; exact Bool.false_ne_true), h0]
    · rcases hlk : List.lookup k0 nl with _ | nug
      · exact absurd hlk h0
      · have hmiss' : ∃ k ∈ ks, List.lookup k nl = none := by
          rcases hmiss with ⟨k, hk, hn⟩
          rcases List.mem_cons.mp hk with he | ht
          · subst he
            exact absurd hn h0
          · exact ⟨k, ht, hn⟩
        by_cases hc : containsKeyB t k0 = true
        · rw [if_pos hc]
          exact modifyFirst_err nl _ k0 _
            (fun s hs => ip_missing nl hwf ks (d + 1) s hs hmiss') t hinv hc
        · rw [if_neg hc]
          dsimp only
          have hkeyinv : keyInv nl (.node (nmodelOf nug d) .nil) := by
            intro m hm k hk
            rw [modelsT, modelsL, List.mem_cons] at hm
            rcases hm with hm | hm
            · subst hm
              have h2 : nug._key = k := by
                simpa [nmodelOf] using hk
              have h1 : nug._key = k0 := lookup_key_eq hwf hlk
              rw [← h2, h1, hlk]
              rfl
            · cases hm
          rw [ip_missing nl hwf ks (d + 1) _ hkeyinv hmiss']

/-- The cursor fold keeps the root's model. -/
theorem ips_model (nl : List (String × Nugget)) :
    (pss : List (List String)) → (t t' : TmTree) →
      insertPaths nl t pss = .ok t' → modelOf t' = modelOf t
  | [], t, t', h => by
    rw [insertPaths] at h
    injection h with h
    rw [← h]
  | ks :: rest, t, t', h => by
    rw [insertPaths] at h
    rcases h1 : insertPath nl t ks 1 with e | t1
    · rw [h1] at h; cases h
    · rw [h1] at h
      dsimp only at h
      rw [ips_model nl rest t1 t' h, ip_model nl ks 1 t t1 h1]

/-- The cursor fold only adds models. -/
theorem ips_mono (nl : List (String × Nugget)) :
    (pss : List (List String)) → (t t' : TmTree) →
      insertPaths nl t pss = .ok t' → ∀ m ∈ modelsT t, m ∈ modelsT t'
  | [], t, t', h, m, hm => by
    rw [insertPaths] at h
    injection h with h
    rw [← h]
    exact hm
  | ks :: rest, t, t', h, m, hm => by
    rw [insertPaths] at h
    rcases h1 : insertPath nl t ks 1 with e | t1
    · rw [h1] at h; cases h
    · rw [h1] at h
      dsimp only at h
      exact ips_mono nl rest t1 t' h m (ip_mono nl ks 1 t t1 h1 m hm)

/-- Every model after the cursor fold is an initial model or a nugget
materialized at `depth = 1 + i` for position `i` of some processed path. -/
theorem ips_new (nl : List (String × Nugget)) :
    (pss : List (List String)) → (t t' : TmTree) →
      insertPaths nl t pss = .ok t' → ∀ m ∈ modelsT t',
        m ∈ modelsT t ∨ ∃ ks ∈ pss, ∃ i, i < ks.length ∧ ∃ nug,
          List.lookup (ks.getD i "") nl = some nug ∧ m = nmodelOf nug (1 + i)
  | [], t, t', h, m, hm => by
    rw [insertPaths] at h
    injection h with h
    subst h
    exact Or.inl hm
  | ks :: rest, t, t', h, m, hm => by
    rw [insertPaths] at h
    rcases h1 : insertPath nl t ks 1 with e | t1
    · rw [h1] at h; cases h
    · rw [h1] at h
      dsimp only at h
      rcases ips_new nl rest t1 t' h m hm with h2 | ⟨ks', hks', rest'⟩
      · rcases ip_new nl ks 1 t t1 h1 m h2 with h3 | ⟨i, hi, nug, hl, hmeq⟩
        · exact Or.inl h3
        · exact Or.inr ⟨ks, List.mem_cons_self ks rest, i, hi, nug, hl, hmeq⟩
      · exact Or.inr ⟨ks', List.mem_cons_of_mem ks hks', rest'⟩

/-- The cursor fold preserves the key invariant. -/
theorem ips_keyInv (nl : List (String × Nugget)) (hwf : wfAssoc nl) :
    (pss : List (List String)) → (t t' : TmTree) →
      insertPaths nl t pss = .ok t' → keyInv nl t → keyInv nl t'
  | [], t, t', h, hinv => by
    rw [insertPaths] at h
    injection h with h
    rw [← h]
    exact hinv
  | ks :: rest, t, t', h, hinv => by
    rw [insertPaths] at h
    rcases h1 : insertPath nl t ks 1 with e | t1
    · rw [h1] at h; cases h
    · rw [h1] at h
      dsimp only at h
      exact ips_keyInv nl hwf rest t1 t' h (ip_keyInv nl hwf ks 1 t t1 h1 hinv)

/-- Splitting the cursor fold over an appended path list. -/
theorem ips_append (nl : List (String × Nugget)) :
    (ps qs : List (List String)) → (t : TmTree) →
      insertPaths nl t (ps ++ qs) =
        match insertPaths nl t ps with
        | .ok t1 => insertPaths nl t1 qs
        | .error e => .error e
  | [], qs, t => rfl
  | ks :: rest, qs, t => by
    rw [List.cons_append, insertPaths, insertPaths]
    rcases h1 : insertPath nl t ks 1 with e | t1
    · rfl
    · dsimp only
      exact ips_append nl rest qs t1

/-- The root model always carries depth 0. -/
theorem rootModel_depth (c : Catalog) : (rootModel c).depth = 0 := by
  rw [rootModel]
  rcases List.lookup "adit" c.allNuggets <;> rfl

/-- The initial one-node tree satisfies the key invariant in a
well-formed catalog. -/
theorem root_keyInv (c : Catalog) (hwf : wfAssoc c.allNuggets) :
    keyInv c.allNuggets (.node (rootModel c) .nil) := by
  intro m hm k hk
  rw [modelsT, modelsL, List.mem_cons] at hm
  rcases hm with hm | hm
  · subst hm
    rw [rootModel] at hk
    rcases hl : List.lookup "adit" c.allNuggets with _ | n
    · rw [hl] at hk
      cases hk
    · rw [hl] at hk
      dsimp only [nmodelOf] at hk
      injection hk with hk
      have h1 : n._key = "adit" := lookup_key_eq hwf hl
      rw [← hk, h1, hl]
      rfl
  · cases hm

/-- C2 (amended): in the built tree the root keeps depth 0, a key reached
again keeps the model recorded at its first encounter (insertions never
rewrite existing models), and a newly materialized node is assigned
`depth = i + 1` where `i` is the 0-based position of its key in the path
being walked — for a child of the root (path position 1) that is depth 2,
its parent's depth plus *two*, because the `depth` counter starts at 1 and
is already incremented when the root key `adit` at position 0 matches the
root. -/
theorem c2_depth_assignment (c : Catalog) (paths : List (List String)) (t : TmTree)
    (h : getTree c paths = .ok t) :
    (modelOf t).depth = 0 ∧
      (∀ m ∈ modelsT t, m = rootModel c ∨
        ∃ ks ∈ paths, ∃ i, i < ks.length ∧ ∃ nug,
          List.lookup (ks.getD i "") c.allNuggets = some nug ∧ m = nmodelOf nug (1 + i)) ∧
      ∀ more t', getTree c (paths ++ more) = .ok t' → ∀ m ∈ modelsT t, m ∈ modelsT t' := by
  rw [getTree] at h
  refine ⟨?_, ?_, ?_⟩
  · rw [ips_model c.allNuggets paths _ t h]
    exact rootModel_depth c
  · intro m hm
    rcases ips_new c.allNuggets paths _ t h m hm with hbase | hnew
    · rw [modelsT, modelsL, List.mem_cons] at hbase
      rcases hbase with hb | hb
      · exact Or.inl hb
      · cases hb
    · exact Or.inr hnew
  · intro more t' h' m hm
    rw [getTree, ips_append] at h'
    rw [h] at h'
    dsimp only at h'
    exact ips_mono c.allNuggets more t t' h' m hm

/-- C2 witness: the amended theorem applied to the concrete two-node
catalog, reading off the root's depth. -/
theorem c2_depth_assignment_witness : (modelOf tEx2).depth = 0 :=
  (c2_depth_assignment cEx2 pEx2 tEx2 rfl).1

/-- C2 counterexample: for the single path `[adit, a]` the built tree has
root depth 0 but assigns the root's child `a` depth 2, so the claimed
`depth = parent depth + 1` law is false. -/
theorem c2_counterexample :
    getTree cEx2 pEx2 = .ok tEx2 ∧
      (modelOf tEx2).depth = 0 ∧
      depthOfKey tEx2 "a" = some 2 ∧
      depthsParentPlusOneB tEx2 = false :=
  ⟨rfl, rfl, rfl, rfl⟩

/-- Processing a path list that mentions a missing key always ends in the
`assert.ok` failure. -/
theorem ips_missing (nl : List (String × Nugget)) (hwf : wfAssoc nl) :
    (pss : List (List String)) → (t : TmTree) → keyInv nl t →
      (∃ ks ∈ pss, ∃ k ∈ ks, List.lookup k nl = none) →
      insertPaths nl t pss = .error .assertionError
  | [], t, _, hm => by
    rcases hm with ⟨ks, hks, _⟩
    cases hks
  | p :: rest, t, hinv, hm => by
    rw [insertPaths]
    by_cases hp : ∃ k ∈ p, List.lookup k nl = none
    · rw [ip_missing nl hwf p 1 t hinv hp]
    · push_neg at hp
      have hall : ∀ k ∈ p, (List.lookup k nl).isSome :=
        fun k hk => Option.ne_none_iff_isSome.mp (hp k hk)
      obtain ⟨t1, h1⟩ := ip_total nl p 1 t hall
      rw [h1]
      dsimp only
      have hm' : ∃ ks ∈ rest, ∃ k ∈ ks, List.lookup k nl = none := by
        rcases hm with ⟨ks, hks, k, hk, hn⟩
        rcases List.mem_cons.mp hks with he | ht
        · subst he
          exact absurd hn (hp k hk)
        · exact ⟨ks, ht, k, hk, hn⟩
      exact ips_missing nl hwf rest t1 (ip_keyInv nl hwf p 1 t t1 h1 hinv) hm'

/-- C5 (amended): when some path contains a key absent from the
well-formed node-data lookup, the tree build fails immediately at that key
— but with Node's `AssertionError` (the `assert.ok(nugget)` call), not a
`ReferenceError`-class error. -/
theorem c5_missing_key_asserts (c : Catalog) (paths : List (List String))
    (hwf : wfAssoc c.allNuggets)
    (hmiss : ∃ ks ∈ paths, ∃ k ∈ ks, List.lookup k c.allNuggets = none) :
    getTree c paths = .error .assertionError := by
  rw [getTree]
  exact ips_missing c.allNuggets hwf paths _ (root_keyInv c hwf) hmiss

/-- C5 witness: the amended theorem on the concrete catalog whose second
path mentions the absent key `zz`. -/
theorem c5_missing_key_asserts_witness :
    getTree cEx5 pEx5 = .error .assertionError :=
  c5_missing_key_asserts cEx5 pEx5 (by decide) (by decide)

/-- C5 counterexample: the failed build raises `AssertionError`, which is
not the `ReferenceError` class the claim names. -/
theorem c5_counterexample :
    getTree cEx5 pEx5 = .error .assertionError ∧
      getTree cEx5 pEx5 ≠ .error .referenceError := by
  refine ⟨rfl, ?_⟩
  intro h
  rw [show getTree cEx5 pEx5 = Except.error JsErr.assertionError from rfl] at h
  injection h with h
  cases h

/-- The root model of any subtree is among its models. -/
theorem modelOf_mem_modelsT (t : TmTree) : modelOf t ∈ modelsT t := by
  cases t with
  | node m cs =>
    rw [modelOf, modelsT]
    exact List.mem_cons_self m (modelsL cs)

/-- A child key of a children list names a model of that list. -/
theorem childKeys_mem_models :
    (cs : TmList) → (k' : Option String) → k' ∈ childKeys cs →
      ∃ m ∈ modelsL cs, m._key = k'
  | .cons c rest, k', h => by
    rw [childKeys, List.mem_cons] at h
    rcases h with h | h
    · exact ⟨modelOf c, by
        rw [modelsL, List.mem_append]
        exact Or.inl (modelOf_mem_modelsT c), h.symm⟩
    · obtain ⟨m, hm, hk⟩ := childKeys_mem_models rest k' h
      exact ⟨m, by rw [modelsL, List.mem_append]; exact Or.inr hm, hk⟩

/-- The child keys after a sorted insertion. -/
theorem childKeys_insertSorted (child : TmTree) :
    (cs : TmList) → (k' : Option String) →
      (k' ∈ childKeys (insertSorted child cs) ↔
        k' = (modelOf child)._key ∨ k' ∈ childKeys cs)
  | .nil, k' => by simp [insertSorted, childKeys]
  | .cons x rest, k' => by
    rw [insertSorted]
    by_cases hcmp : 0 < nuggetCompare (modelOf x) (modelOf child)
    · rw [if_pos hcmp]
      simp [childKeys, List.mem_cons]
    · rw [if_neg hcmp]
      simp only [childKeys, List.mem_cons, childKeys_insertSorted child rest k']
      tauto

/-- `List.contains` with a lawful `BEq` reflects membership. -/
theorem contains_false_iff {α : Type} [BEq α] [LawfulBEq α] {l : List α} {k : α} :
    l.contains k = false ↔ k ∉ l := by
  induction l with
  | nil => simp
  | cons a as ih =>
    rw [List.contains_cons, Bool.or_eq_false_iff, ih]
    rw [beq_eq_false_iff_ne]
    simp [List.mem_cons, not_or]

/-- Inserting a fresh key into duplicate-free child keys keeps them
duplicate-free. -/
theorem hasDup_insertSorted (child : TmTree) :
    (cs : TmList) → (modelOf child)._key ∉ childKeys cs →
      hasDupB (childKeys cs) = false →
      hasDupB (childKeys (insertSorted child cs)) = false
  | .nil, _, _ => rfl
  | .cons x rest, hnotin, hdup => by
    rw [childKeys, List.mem_cons, not_or] at hnotin
    obtain ⟨hne, hnotin'⟩ := hnotin
    rw [childKeys, hasDupB, Bool.or_eq_false_iff] at hdup
    obtain ⟨hcont, hdup'⟩ := hdup
    rw [insertSorted]
    by_cases hcmp : 0 < nuggetCompare (modelOf x) (modelOf child)
    · rw [if_pos hcmp]
      rw [childKeys, childKeys, hasDupB, Bool.or_eq_false_iff]
      refine ⟨?_, by rw [hasDupB, Bool.or_eq_false_iff]; exact ⟨hcont, hdup'⟩⟩
      rw [contains_false_iff, List.mem_cons, not_or]
      exact ⟨fun h => hne h, hnotin'⟩
    · rw [if_neg hcmp]
      rw [childKeys, hasDupB, Bool.or_eq_false_iff]
      constructor
      · rw [contains_false_iff]
        intro hmem
        rcases (childKeys_insertSorted child rest (modelOf x)._key).mp hmem with h | h
        · exact hne h.symm
        · rw [contains_false_iff] at hcont
          exact hcont h
      · exact hasDup_insertSorted child rest hnotin' hdup'

/-- Sorted insertion preserves distinct-children of all member
subtrees. -/
theorem ckdL_insertSorted (child : TmTree) :
    (cs : TmList) → childKeysDistinctB child = true → childKeysDistinctL cs = true →
      childKeysDistinctL (insertSorted child cs) = true
  | .nil, hch, _ => by
    rw [insertSorted, childKeysDistinctL, childKeysDistinctL, hch]
    rfl
  | .cons x rest, hch, hl => by
    rw [childKeysDistinctL, Bool.and_eq_true] at hl
    rw [insertSorted]
    by_cases hcmp : 0 < nuggetCompare (modelOf x) (modelOf child)
    · rw [if_pos hcmp]
      rw [childKeysDistinctL, hch, childKeysDistinctL, hl.1, hl.2]
      rfl
    · rw [if_neg hcmp]
      rw [childKeysDistinctL, hl.1, ckdL_insertSorted child rest hch hl.2]
      rfl

mutual
/-- `modifyFirst` preserves the distinct-children invariant whenever `f`
preserves it (and the model) on key-invariant subtrees. -/
theorem modifyFirst_ckd (nl : List (String × Nugget)) (f : TmTree → Except JsErr TmTree)
    (k : String) (hfm : ∀ s s', f s = .ok s' → modelOf s' = modelOf s)
    (hfd : ∀ s s', f s = .ok s' → keyInv nl s → childKeysDistinctB s = true →
      childKeysDistinctB s' = true) :
    (t t' : TmTree) → modifyFirst f k t = .ok t' → keyInv nl t →
      childKeysDistinctB t = true → childKeysDistinctB t' = true
  | .node m0 cs, t', h, hinv, hck => by
    rw [modifyFirst] at h
    by_cases hk : m0._key = some k
    · rw [if_pos hk] at h
      exact hfd _ _ h hinv hck
    · rw [if_neg hk] at h
      rcases hcs : modifyFirstL f k cs with e | cs'
      · rw [hcs] at h; cases h
      · rw [hcs] at h
        dsimp only at h
        injection h with h
        subst h
        rw [childKeysDistinctB, Bool.and_eq_true] at hck
        obtain ⟨hkeys, hckl⟩ := modifyFirstL_ckd nl f k hfm hfd cs cs' hcs
          (keyInv_children nl m0 cs hinv) hck.2
        rw [childKeysDistinctB, hkeys, hckl]
        rw [Bool.and_eq_true]
        exact ⟨hck.1, rfl⟩
theorem modifyFirstL_ckd (nl : List (String × Nugget)) (f : TmTree → Except JsErr TmTree)
    (k : String) (hfm : ∀ s s', f s = .ok s' → modelOf s' = modelOf s)
    (hfd : ∀ s s', f s = .ok s' → keyInv nl s → childKeysDistinctB s = true →
      childKeysDistinctB s' = true) :
    (cs cs' : TmList) → modifyFirstL f k cs = .ok cs' → keyInvL nl cs →
      childKeysDistinctL cs = true →
      childKeys cs' = childKeys cs ∧ childKeysDistinctL cs' = true
  | .nil, cs', h, _, _ => by
    rw [modifyFirstL] at h
    injection h with h
    subst h
    exact ⟨rfl, rfl⟩
  | .cons c rest, cs', h, hinv, hck => by
    rw [modifyFirstL] at h
    obtain ⟨hic, hir⟩ := keyInvL_cons nl c rest hinv
    rw [childKeysDistinctL, Bool.and_eq_true] at hck
    by_cases hc : containsKeyB c k = true
    · rw [if_pos hc] at h
      rcases h1 : modifyFirst f k c with e | c'
      · rw [h1] at h; cases h
      · rw [h1] at h
        dsimp only at h
        injection h with h
        subst h
        have hmodel : modelOf c' = modelOf c := modifyFirst_model f k hfm c c' h1
        constructor
        · rw [childKeys, childKeys, hmodel]
        · rw [childKeysDistinctL,
            modifyFirst_ckd nl f k hfm hfd c c' h1 hic hck.1, hck.2]
          rfl
    · rw [if_neg hc] at h
      rcases h2 : modifyFirstL f k rest with e | rest'
      · rw [h2] at h; cases h
      · rw [h2] at h
        dsimp only at h
        injection h with h
        subst h
        obtain ⟨hkeys, hckl⟩ := modifyFirstL_ckd nl f k hfm hfd rest rest' h2 hir hck.2
        constructor
        · rw [childKeys, childKeys, hkeys]
        · rw [childKeysDistinctL, hck.1, hckl]
          rfl
end

/-- Path insertion into a well-formed catalog preserves the
distinct-children invariant. -/
theorem ip_ckd (nl : List (String × Nugget)) (hwf : wfAssoc nl) :
    (ks : List String) → (d : Nat) → (t t' : TmTree) →
      insertPath nl t ks d = .ok t' → keyInv nl t →
      childKeysDistinctB t = true → childKeysDistinctB t' = true
  | [], d, t, t', h, _, hck => by
    rw [insertPath] at h
    injection h with h
    rw [← h]
    exact hck
  | k :: ks, d, t, t', h, hinv, hck => by
    rw [insertPath] at h
    by_cases hc : containsKeyB t k = true
    · rw [if_pos hc] at h
      exact modifyFirst_ckd nl _ k
        (fun s s' hs => ip_model nl ks (d + 1) s s' hs)
        (fun s s' hs hks hcks => ip_ckd nl hwf ks (d + 1) s s' hs hks hcks)
        t t' h hinv hck
    · rw [if_neg hc] at h
      rcases hl : List.lookup k nl with _ | nug
      · rw [hl] at h; cases h
      · rw [hl] at h
        dsimp only at h
        rcases h2 : insertPath nl (.node (nmodelOf nug d) .nil) ks (d + 1) with e | child
        · rw [h2] at h; cases h
        · rw [h2] at h
          dsimp only at h
          injection h with h
          subst h
          have hkeyinv0 : keyInv nl (.node (nmodelOf nug d) .nil) := by
            intro m hm k' hk'
            rw [modelsT, modelsL, List.mem_cons] at hm
            rcases hm with hm | hm
            · subst hm
              have h2' : nug._key = k' := by simpa [nmodelOf] using hk'
              have h1' : nug._key = k := lookup_key_eq hwf hl
              rw [← h2', h1', hl]
              rfl
            · cases hm
          have hchild_ckd : childKeysDistinctB child = true :=
            ip_ckd nl hwf ks (d + 1) _ child h2 hkeyinv0 rfl
          have hchild_model : modelOf child = nmodelOf nug d :=
            ip_model nl ks (d + 1) _ child h2
          cases t with
          | node m0 cs =>
            rw [childKeysDistinctB, Bool.and_eq_true] at hck
            have hnotin : (modelOf child)._key ∉ childKeys cs := by
              intro hmem
              obtain ⟨m, hm, hkm⟩ := childKeys_mem_models cs _ hmem
              have hinner : m._key = some k := by
                rw [hkm, hchild_model]
                have h1' : nug._key = k := lookup_key_eq hwf hl
                simp [nmodelOf, h1']
              have : containsKeyB (.node m0 cs) k = true := by
                rw [containsKeyB, Bool.or_eq_true_iff]
                exact Or.inr (modelsL_containsKey cs k m hm hinner)
              exact hc this
            rw [addChildT, childKeysDistinctB, Bool.and_eq_true]
            constructor
            · rw [hasDup_insertSorted child cs hnotin
                (by rw [Bool.not_eq_true'] at hck; exact hck.1)]
              rfl
            · exact ckdL_insertSorted child cs hchild_ckd hck.2

/-- The cursor fold preserves distinct children. -/
theorem ips_ckd (nl : List (String × Nugget)) (hwf : wfAssoc nl) :
    (pss : List (List String)) → (t t' : TmTree) →
      insertPaths nl t pss = .ok t' → keyInv nl t →
      childKeysDistinctB t = true → childKeysDistinctB t' = true
  | [], t, t', h, _, hck => by
    rw [insertPaths] at h
    injection h with h
    rw [← h]
    exact hck
  | ks :: rest, t, t', h, hinv, hck => by
    rw [insertPaths] at h
    rcases h1 : insertPath nl t ks 1 with e | t1
    · rw [h1] at h; cases h
    · rw [h1] at h
      dsimp only at h
      exact ips_ckd nl hwf rest t1 t' h
        (ip_keyInv nl hwf ks 1 t t1 h1 hinv)
        (ip_ckd nl hwf ks 1 t t1 h1 hinv hck)

/-- C3 (amended): in any tree `getTree` builds from a well-formed catalog,
no node has two children with the same key — a key is never materialized a
second time within the subtree currently being walked.  (The whole tree
can still contain two nodes with a shared-prefix key when that key was
first materialized in a *different* subtree: see the counterexample.) -/
theorem c3_no_duplicate_children (c : Catalog) (paths : List (List String)) (t : TmTree)
    (hwf : wfAssoc c.allNuggets) (h : getTree c paths = .ok t) :
    childKeysDistinctB t = true := by
  rw [getTree] at h
  exact ips_ckd c.allNuggets hwf paths _ t h (root_keyInv c hwf) rfl

/-- C3 witness: the spec's own example — paths `[adit,a,b]` and
`[adit,a,c]` build a tree with pairwise-distinct child keys everywhere
(one `a` node carrying both `b` and `c`). -/
theorem c3_no_duplicate_children_witness : childKeysDistinctB tW3 = true :=
  c3_no_duplicate_children cW3 pW3 tW3 (by decide) rfl

/-- C3 counterexample: the input contains the two path sequences
`[adit,b,k]` and `[adit,b,k,m]`, which share the prefix `[adit,b,k]`
containing the key `k`; yet the built tree holds *two* nodes keyed `k`
(the first materialized under `a` by the earlier path, the second under
`b` because `first` searches only the current subtree), so "exactly one
tree node per distinct key along that shared prefix" fails. -/
theorem c3_counterexample :
    ["adit", "b", "k"] ∈ pEx3 ∧ ["adit", "b", "k", "m"] ∈ pEx3 ∧
      ["adit", "b", "k"] = ["adit", "b", "k", "m"].take 3 ∧
      "k" ∈ ["adit", "b", "k"] ∧
      Except.map (fun t => countKey t "k") (getTree cEx3 pEx3) = .ok 2 :=
  ⟨by decide, by decide, rfl, by decide, rfl⟩

/-- Replacing the entry at a different key leaves a lookup unchanged. -/
theorem lookup_map_replace_ne :
    (m : List (String × String)) → (a v k : String) → k ≠ a →
      List.lookup k (m.map (fun p => if p.1 = a then (a, v) else p)) = List.lookup k m
  | [], _, _, _, _ => rfl
  | p :: rest, a, v, k, hne => by
    rw [List.map_cons, List.lookup, List.lookup]
    by_cases hp : p.1 = a
    · rw [if_pos hp]
      have h1 : (k == (a, v).1) = false := beq_eq_false_iff_ne.mpr hne
      have h2 : (k == p.1) = false := by
        rw [hp]
        exact beq_eq_false_iff_ne.mpr hne
      rw [h1, h2]
      exact lookup_map_replace_ne rest a v k hne
    · rw [if_neg hp]
      by_cases hk : (k == p.1) = true
      · rw [hk]
      · rw [Bool.not_eq_true] at hk
        rw [hk]
        exact lookup_map_replace_ne rest a v k hne

/-- Appending an entry at a different key leaves a lookup unchanged. -/
theorem lookup_append_single_ne :
    (m : List (String × String)) → (a v k : String) → k ≠ a →
      List.lookup k (m ++ [(a, v)]) = List.lookup k m
  | [], a, v, k, hne => by
    rw [List.nil_append, List.lookup, List.lookup]
    rw [beq_eq_false_iff_ne.mpr hne]
    rfl
  | p :: rest, a, v, k, hne => by
    rw [List.cons_append, List.lookup, List.lookup]
    by_cases hk : (k == p.1) = true
    · rw [hk]
    · rw [Bool.not_eq_true] at hk
      rw [hk]
      exact lookup_append_single_ne rest a v k hne

/-- `setKV` at a different key leaves a lookup unchanged. -/
theorem lookup_setKV_ne (m : List (String × String)) (a v k : String) (hne : k ≠ a) :
    List.lookup k (setKV m a v) = List.lookup k m := by
  rw [setKV]
  by_cases hs : (List.lookup a m).isSome = true
  · rw [if_pos hs]
    exact lookup_map_replace_ne m a v k hne
  · rw [if_neg hs]
    exact lookup_append_single_ne m a v k hne

/-- Recording entries whose keys all differ from `k` leaves the lookup at
`k` unchanged. -/
theorem lookup_recordAll_ne (k : String) :
    (entries : List (String × String)) → (m : List (String × String)) →
      (∀ kv ∈ entries, kv.1 ≠ k) →
      List.lookup k (recordAll m entries) = List.lookup k m
  | [], m, _ => rfl
  | kv :: rest, m, hne => by
    rw [recordAll]
    rw [lookup_recordAll_ne k rest (setKV m kv.1 kv.2)
      (fun kv' h => hne kv' (List.mem_cons_of_mem kv h))]
    exact lookup_setKV_ne m kv.1 kv.2 k
      (fun h => hne kv (List.mem_cons_self kv rest) h.symm)

/-- In a well-formed lookup, membership determines the lookup result. -/
theorem wf_lookup_of_mem {nl : List (String × Nugget)} (hwf : wfAssoc nl) :
    ∀ {k : String} {v : Nugget}, (k, v) ∈ nl → List.lookup k nl = some v := by
  induction nl with
  | nil => intro k v h; cases h
  | cons p rest ih =>
    intro k v h
    obtain ⟨hkeys, hnodup⟩ := hwf
    rw [List.map_cons, List.nodup_cons] at hnodup
    rcases List.mem_cons.mp h with he | ht
    · rw [List.lookup, ← he]
      dsimp only
      rw [beq_self_eq_true k]
    · have hk_in : k ∈ rest.map Prod.fst :=
        List.mem_map.mpr ⟨(k, v), ht, rfl⟩
      have hne : k ≠ p.1 := fun he' => hnodup.1 (he' ▸ hk_in)
      rw [List.lookup, beq_eq_false_iff_ne.mpr hne]
      exact ih ⟨fun q hq => hkeys q (List.mem_cons_of_mem p hq), hnodup.2⟩ ht

/-- C7 (amended): every key listed in a composite's `groupedKeys` is
marked consumed (it enters `writtenNugs`, so the own-body pass skips it);
and a grouped key whose node is neither a passage (`_id` prefixed
`passage`) nor itself a composite never contributes a standalone chunk to
the `getOrdered()` walk.  (A grouped key that *is* a passage with a body
still renders standalone: see the counterexample.) -/
theorem c7_grouped_keys_consumed (c c' : Catalog) (s : Nugget) (x : String)
    (hwf : wfAssoc c.allNuggets)
    (hinit : c.seamNuggetChunks = [])
    (hs : s ∈ c.allNuggets.map Prod.snd)
    (hseam : s.nuggets.isSome = true)
    (hx : x ∈ s.nuggets.getD [])
    (hxn : ∀ nx, List.lookup x c.allNuggets = some nx →
      strStarts nx._id "passage" = false ∧ nx.nuggets = none)
    (hpc : populateChunks c = .ok c') :
    x ∈ consumedKeys c ∧
      ∀ (t : TmTree) (ps : List (NModel × String)) (m : NModel) (md : String),
        orderedPairs c' t = .ok ps → (m, md) ∈ ps → m._key ≠ some x := by
  have hseams_mem : s ∈ seamsOf c := List.mem_filter.mpr ⟨hs, hseam⟩
  have hconsumed : x ∈ consumedKeys c :=
    List.mem_flatMap.mpr ⟨s, hseams_mem, List.mem_cons_of_mem _ hx⟩
  rcases hi : c.initialised with _ | _
  · rw [populateChunks, hi] at hpc
    cases hpc
  · rw [populateChunks, hi, if_pos rfl] at hpc
    injection hpc with hpc
    refine ⟨hconsumed, ?_⟩
    have hseam_ne : ∀ kv ∈ (seamsOf c).map (fun s' => (s'._key, seamChunkOf c s')),
        kv.1 ≠ x := by
      intro kv hkv heq
      obtain ⟨s', hs', hkv_eq⟩ := List.mem_map.mp hkv
      rw [← hkv_eq] at heq
      dsimp only at heq
      have hs'f := List.mem_filter.mp hs'
      obtain ⟨p, hp, hp2⟩ := List.mem_map.mp hs'f.1
      have hkey : s'._key = p.1 := by
        rw [← hp2]
        exact hwf.1 p hp
      have hmem : (x, s') ∈ c.allNuggets := by
        have hpx : p = (x, s') := by
          rw [show p = (p.1, p.2) from rfl, hp2, ← hkey, heq]
        rw [← hpx]
        exact hp
      have hnone := (hxn s' (wf_lookup_of_mem hwf hmem)).2
      rw [hnone] at hs'f
      cases hs'f.2
    have hown_ne : ∀ kv ∈ ownEntriesOf c, kv.1 ≠ x := by
      intro kv hkv heq
      obtain ⟨n, hn, hf⟩ := List.mem_filterMap.mp hkv
      rcases hb : n.body with _ | b
      · rw [hb] at hf
        cases hf
      · rw [hb] at hf
        dsimp only at hf
        by_cases hbe : b = ""
        · rw [if_pos hbe] at hf
          cases hf
        · rw [if_neg hbe] at hf
          injection hf with hf
          have hk1 : kv.1 = n._key := by rw [← hf]
          have hnmem := List.mem_filter.mp hn
          have hcontains : (consumedKeys c).contains n._key = false := by
            have h2 := hnmem.2
            rwa [Bool.not_eq_true'] at h2
          rw [contains_false_iff] at hcontains
          apply hcontains
          rw [← hk1, heq]
          exact hconsumed
    have hchunk :
        List.lookup x
          (recordAll
            (recordAll c.seamNuggetChunks
              ((seamsOf c).map (fun s' => (s'._key, seamChunkOf c s'))))
            (ownEntriesOf c)) = none := by
      rw [lookup_recordAll_ne x (ownEntriesOf c) _ hown_ne,
        lookup_recordAll_ne x _ _ hseam_ne, hinit]
      rfl
    have hmd : ∀ cc : Catalog, cc.allNuggets = c.allNuggets →
        List.lookup x cc.seamNuggetChunks = none →
        ∀ d, mdForExtract cc (some x) d = none := by
      intro cc hca hcs d
      rw [mdForExtract]
      dsimp only
      rw [hca]
      rcases hlx : List.lookup x c.allNuggets with _ | nx
      · rfl
      · dsimp only
        rw [hcs]
        dsimp only
        rw [(hxn nx hlx).1]
        rfl
    intro t ps m md hop hmem hkey
    have hca : c'.allNuggets = c.allNuggets := by
      rw [← hpc]
    have hcs : List.lookup x c'.seamNuggetChunks = none := by
      rw [← hpc]
      exact hchunk
    have h1 := (opT_mem c' t ps hop m md hmem).1
    rw [hkey, hmd c' hca hcs m.depth] at h1
    cases h1

/-- C7 witness: in the concrete catalog whose seam `S` groups the
ordinary nuggets `x` and `y`, the grouped key `x` is consumed and no
`getOrdered()` contribution ever carries it. -/
theorem c7_grouped_keys_consumed_witness :
    "x" ∈ consumedKeys cW7 ∧
      ∀ (t : TmTree) (ps : List (NModel × String)) (m : NModel) (md : String),
        orderedPairs cW7' t = .ok ps → (m, md) ∈ ps → m._key ≠ some "x" :=
  c7_grouped_keys_consumed cW7 cW7'
    (mkNug "S" "nugget/S" "S" (some "S-body") (some ["x", "y"])) "x"
    (by decide) rfl (by decide) rfl (by decide)
    (by
      intro nx h
      rw [show List.lookup "x" cW7.allNuggets
          = some (mkNug "x" "nugget/x" "X-label" (some "X") none) from rfl] at h
      injection h with h
      rw [← h]
      exact ⟨rfl, rfl⟩)
    rfl

/-- C7 counterexample: the grouped key `p` names a passage with a body.
It is marked consumed, yet the `getOrdered()` run over the tree
`adit → {S, p}` still walks `p`'s node into a standalone chunk
(`#mdForExtract` falls back to the passage body because only the
seam-chunk map, not the consumed set, is consulted), so the claim's
"no such grouped key contributes a standalone chunk" fails. -/
theorem c7_counterexample :
    "p" ∈ consumedKeys cEx7 ∧
      populateChunks cEx7 = .ok cEx7' ∧
      orderedKeys cEx7' pEx7 = .ok [some "adit", some "p", some "S"] :=
  ⟨by decide, rfl, rfl⟩
